import Mathlib

/-!
Verification development for the tracerz generative-grammar engine
(single header `tracerz.h`).

The C++ source is shallowly embedded as executable Lean definitions:

* `Json` models the external structured-value type (nlohmann::json at its
  interface boundary: a tagged union of null / string / number / array /
  object; lookup of an absent object member is observed as `null`, which is
  the reading under which the source's own null-checks in
  `TreeNode::expandNode` are meaningful).
* The regular expressions of `tracerz::details` are embedded as
  deterministic character-list parsers implementing the ECMAScript
  leftmost / greedy matching behaviour of each concrete pattern.
* `PTree` models `TreeNode` (ownership tree); paths (`List Nat` of child
  indices) stand for `shared_ptr` node identity, which is faithful because
  every node is uniquely owned by its parent.
* `ExpState` + `expandStep` model `Tree` with its explicit stack of
  in-progress nodes; the injected randomness source is a function
  `Nat → Nat` (the sequence of values produced by the distribution) read
  through a counter.
* Exceptions are modelled with `Except Err`.
-/

namespace Tracerz

/-! ## Structured values (external collaborator, nlohmann::json interface) -/

/-- Json models the structured-value tagged union used for grammar source
and runtime rule contents. -/
inductive Json where
  | null : Json
  | str (s : String) : Json
  | num (n : Int) : Json
  | boolean (b : Bool) : Json
  | arr (xs : List Json) : Json
  | obj (fields : List (String × Json)) : Json
deriving Repr

def Json.isNull : Json → Bool
  | .null => true
  | _ => false

def Json.isString : Json → Bool
  | .str _ => true
  | _ => false

def Json.isArray : Json → Bool
  | .arr _ => true
  | _ => false

def Json.isObject : Json → Bool
  | .obj _ => true
  | _ => false

/-- asString models the implicit nlohmann conversion `std::string s = j;`,
which succeeds only on strings. -/
def Json.asString : Json → Option String
  | .str s => some s
  | _ => none

/-- lookupField models object member access `j[key]` observed at the
interface boundary: the member's value, or null when absent. -/
def Json.lookupField (j : Json) (key : String) : Json :=
  match j with
  | .obj fields =>
    match fields.find? (fun kv => kv.1 = key) with
    | some kv => kv.2
    | none => Json.null
  | _ => Json.null

/-- hasField models `j.find(key) != j.end()` on an object. -/
def Json.hasField (j : Json) (key : String) : Bool :=
  match j with
  | .obj fields => (fields.find? (fun kv => kv.1 = key)).isSome
  | _ => false

mutual

/-- dump is a simple serialization standing for nlohmann `dump()`; it only
feeds human-readable exception messages. -/
def Json.dump : Json → String
  | .null => "null"
  | .str s => "\"" ++ s ++ "\""
  | .num n => toString n
  | .boolean b => toString b
  | .arr xs => "[" ++ Json.dumpList xs ++ "]"
  | .obj fields => "\x7b" ++ Json.dumpFields fields ++ "\x7d"

/-- dumpList serializes array elements, comma separated. -/
def Json.dumpList : List Json → String
  | [] => ""
  | [x] => Json.dump x
  | x :: xs => Json.dump x ++ "," ++ Json.dumpList xs

/-- dumpFields serializes object members, comma separated. -/
def Json.dumpFields : List (String × Json) → String
  | [] => ""
  | [(k, v)] => "\"" ++ k ++ "\":" ++ Json.dump v
  | (k, v) :: fs => "\"" ++ k ++ "\":" ++ Json.dump v ++ "," ++ Json.dumpFields fs

end

/-! ## Exceptions -/

/-- Err models the tracerz exception hierarchy (plus the nlohmann
type-conversion error, which is external). -/
inductive Err where
  | wrongParameters (msg : String) : Err
  | badHandler (msg : String) : Err
  | unexpectedType (msg : String) : Err
  | jsonTypeError (msg : String) : Err
deriving Repr, DecidableEq

/-! ## Runtime dictionary

`details::runtime_dictionary_t` is `std::map<std::string, std::stack<json>>`;
we embed it as an association list mapping a key to its stack of values
(head of the list = top of the stack). -/

/-- RuntimeDict models `details::runtime_dictionary_t`
(`std::map<std::string, std::stack<json>>`): the stack stored under each
key, the empty list standing for an absent entry.  The identification is
faithful because the source never stores an empty stack: `operator[]`
default-constructs one only to push onto it immediately, and `pop!!`
erases an entry whose stack becomes empty. -/
def RuntimeDict := String → List Json

/-- emptyDict is the dictionary of a fresh `Tree` before seeding. -/
def RuntimeDict.emptyDict : RuntimeDict := fun _ => []

/-- findStack models `runtimeDictionary.find(key)`. -/
def RuntimeDict.findStack (d : RuntimeDict) (k : String) : Option (List Json) :=
  match d k with
  | [] => none
  | s => some s

/-- push models `runtimeDictionary[key].push(v)`: default-construct the
stack when the key is absent, then push on top of it. -/
def RuntimeDict.push (d : RuntimeDict) (k : String) (v : Json) : RuntimeDict :=
  fun q => if q = k then v :: d q else d q

/-- topVal is the observation `runtimeDictionary[key].top()` used by
`TreeNode::expandNode` (guarded there by a find; stacks stored in the map
are never empty, `headD` covers totality). -/
def RuntimeDict.topVal (d : RuntimeDict) (k : String) : Json :=
  (d k).headD Json.null

/-- popBang is the body of the `pop!!` base extended modifier: if the key
has a non-empty stack, pop it, and erase the key entirely when the stack
becomes empty (under the empty-for-absent identification, storing the
popped stack does both at once). -/
def RuntimeDict.popBang (d : RuntimeDict) (k : String) : RuntimeDict :=
  match d k with
  | _ :: s => fun q => if q = k then s else d q
  | [] => d

/-! ## Character classes of the regular expressions -/

/-- isAlnumC models the POSIX class `[[:alnum:]]` under the C locale. -/
def isAlnumC (c : Char) : Bool := c.isAlpha || c.isDigit

/-- isDotC models the ECMAScript `.` atom (any character except a line
terminator). -/
def isDotC (c : Char) : Bool := c ≠ '\n' && c ≠ '\r'

/-! ## Pattern recognizers

Each regular expression from `tracerz::details` is embedded as a
deterministic parser over `List Char`.  All the concrete patterns are
deterministic under ECMAScript greedy matching (every quantified class
excludes the character that must follow it), except the action blob of
`getOnlyRuleWithActionsRegex`, which is handled by explicit
longest-first search.  Recursive scanners take fuel at least the length
of the input; every recursive call strictly consumes input, so the fuel
never runs out. -/

/-- modChar is the class `[^.#]` of modifier bodies. -/
def modChar (c : Char) : Bool := c ≠ '.' && c ≠ '#'

def consumeAction : List Char → Option (List Char × List Char)
  | '[' :: cs =>
    match cs.dropWhile (fun c => c ≠ ']') with
    | ']' :: rest => some ('[' :: (cs.takeWhile (fun c => c ≠ ']') ++ [']']), rest)
    | _ => none
  | _ => none

theorem consumeAction_shrink {cs m rest} (h : consumeAction cs = some (m, rest)) :
    rest.length + 2 <= cs.length := by
  rw [consumeAction.eq_def] at h
  split at h
  case h_2 => exact absurd h (by simp)
  case h_1 cs' =>
    split at h
    case h_2 => exact absurd h (by simp)
    case h_1 rest' heq =>
      have hle : (cs'.dropWhile (fun c => decide (c ≠ ']'))).length <= cs'.length :=
        (List.dropWhile_sublist (fun c => decide (c ≠ ']'))).length_le
      rw [heq] at hle
      simp only [Option.some.injEq, Prod.mk.injEq] at h
      obtain ⟨-, h2⟩ := h
      subst h2
      simp only [List.length_cons] at hle ⊢
      omega

/-- Fuel-indexed matcher for `^(?:\[[^\]]*\])+$`. -/
def onlyActionsF : Nat → List Char → Bool
  | 0, _ => false
  | fuel + 1, cs =>
    match consumeAction cs with
    | none => false
    | some (_, rest) => rest.isEmpty || onlyActionsF fuel rest

def onlyActionsChars (cs : List Char) : Bool := onlyActionsF cs.length cs

/-- Leftmost scan of `getActionRegex` matches (whole-match tokens). -/
def actionTokensF : Nat → List Char → List String
  | 0, _ => []
  | fuel + 1, cs =>
    match cs with
    | [] => []
    | c :: cs' =>
      match consumeAction (c :: cs') with
      | some (m, rest) => String.mk m :: actionTokensF fuel rest
      | none => actionTokensF fuel cs'

def actionTokensChars (cs : List Char) : List String := actionTokensF cs.length cs

/-- Greedy `(?:\.[^.#]+)*`; fails when a dot has no following body. -/
def parseModsF : Nat → List Char → Option (List Char × List Char)
  | 0, _ => none
  | fuel + 1, cs =>
    match cs with
    | '.' :: cs' =>
      match cs'.dropWhile modChar with
      | rest =>
        if (cs'.takeWhile modChar).isEmpty then none
        else
          match parseModsF fuel rest with
          | some (ms, rest') => some ('.' :: (cs'.takeWhile modChar ++ ms), rest')
          | none => none
    | _ => some ([], cs)

def parseModsChars (cs : List Char) : Option (List Char × List Char) :=
  parseModsF (cs.length + 1) cs

/-- Tail `([[:alnum:]]+)((?:\.[^.#]+)*)#` of a rule pattern. -/
def parseRuleTail (cs : List Char) : Option (List Char × List Char × List Char) :=
  if (cs.takeWhile isAlnumC).isEmpty then none
  else
    match parseModsChars (cs.dropWhile isAlnumC) with
    | none => none
    | some (ms, cs2) =>
      match cs2 with
      | '#' :: rest => some (cs.takeWhile isAlnumC, ms, rest)
      | _ => none

/-- Greedy `(?:\[[^\]]*\])*`; fails when a bracket opens but never
closes, since the following `[[:alnum:]]+` can then never match. -/
def consumeActionStarF : Nat → List Char → Option (List Char × List Char)
  | 0, _ => none
  | fuel + 1, cs =>
    match cs with
    | '[' :: _ =>
      match consumeAction cs with
      | some (m, rest) =>
        match consumeActionStarF fuel rest with
        | some (ms, r) => some (m ++ ms, r)
        | none => none
      | none => none
    | _ => some ([], cs)

def consumeActionStar (cs : List Char) : Option (List Char × List Char) :=
  consumeActionStarF (cs.length + 1) cs

/-- Match of the unanchored `getRuleRegex` at the head of the input:
returns (matched text, rule-name capture, remainder). -/
def matchRuleFrom (cs : List Char) : Option (List Char × List Char × List Char) :=
  match cs with
  | '#' :: cs1 =>
    match consumeActionStar cs1 with
    | none => none
    | some (acts, cs2) =>
      match parseRuleTail cs2 with
      | none => none
      | some (name, ms, rest) =>
        some ('#' :: (acts ++ name ++ ms ++ ['#']), name, rest)
  | _ => none

/-- Leftmost search for `getRuleRegex`:
returns (unmatched prelude, matched text, rule name, remainder). -/
def ruleSearchSplit : List Char → Option (List Char × List Char × List Char × List Char)
  | [] => none
  | c :: cs =>
    match matchRuleFrom (c :: cs) with
    | some (m, name, rest) => some ([], m, name, rest)
    | none =>
      match ruleSearchSplit cs with
      | some (pre, m, n, r) => some (c :: pre, m, n, r)
      | none => none

def containsRule (s : String) : Bool := (ruleSearchSplit s.data).isSome


/-- Token iteration {-1, 0} over `getRuleRegex` matches, after the first
match: prefix of each further match (even when empty), then the match,
then a final non-empty suffix. -/
def ruleTokensRestF : Nat → List Char → List String
  | 0, _ => []
  | fuel + 1, cs =>
    match ruleSearchSplit cs with
    | none => if cs.isEmpty then [] else [String.mk cs]
    | some (pre, m, _, rest) => String.mk pre :: String.mk m :: ruleTokensRestF fuel rest

/-- Token iteration {-1, 0} over `getRuleRegex` as used on mixed text:
with no match at all, the whole sequence is the single token. -/
def ruleTokensChars (cs : List Char) : List String :=
  match ruleSearchSplit cs with
  | none => [String.mk cs]
  | some (pre, m, _, rest) => String.mk pre :: String.mk m :: ruleTokensRestF cs.length rest

/-- regex_replace over `getRuleRegex` with format `$1`: every match is
replaced by its rule-name capture, unmatched text is kept. -/
def ruleReplace1F : Nat → List Char → List Char
  | 0, cs => cs
  | fuel + 1, cs =>
    match ruleSearchSplit cs with
    | none => cs
    | some (pre, _, name, rest) => pre ++ name ++ ruleReplace1F fuel rest

def ruleReplace1 (s : String) : String := String.mk (ruleReplace1F s.data.length s.data)

/-- Anchored `getOnlyRuleRegex` `^#([[:alnum:]]+)((?:\.[^.#]+)*)#$`,
returning the rule name and modifier-list captures. -/
def onlyRuleParse (s : String) : Option (String × String) :=
  match s.data with
  | '#' :: cs =>
    match parseRuleTail cs with
    | some (name, ms, []) => some (String.mk name, String.mk ms)
    | _ => none
  | _ => none

/-- txtChar is the class `[^#\]]` of the key-with-text value. -/
def txtChar (c : Char) : Bool := c ≠ '#' && c ≠ ']'

/-- Anchored `getOnlyKeyWithTextActionRegex`
`^\[([[:alnum:]]+):([^#\]]+)\]$`, returning key and text captures. -/
def onlyKeyWithTextParse (s : String) : Option (String × String) :=
  match s.data with
  | '[' :: cs =>
    if (cs.takeWhile isAlnumC).isEmpty then none
    else
      match cs.dropWhile isAlnumC with
      | ':' :: cs2 =>
        if (cs2.takeWhile txtChar).isEmpty then none
        else
          match cs2.dropWhile txtChar with
          | [']'] => some (String.mk (cs.takeWhile isAlnumC), String.mk (cs2.takeWhile txtChar))
          | _ => none
      | _ => none
  | _ => none

/-- Anchored `getOnlyKeyWithRuleActionRegex`
`^\[([[:alnum:]]+):(#[[:alnum:]]+(?:\.[^.#]+)*#)\]$`. -/
def onlyKeyWithRuleParse (s : String) : Option (String × String) :=
  match s.data with
  | '[' :: cs =>
    if (cs.takeWhile isAlnumC).isEmpty then none
    else
      match cs.dropWhile isAlnumC with
      | ':' :: '#' :: cs2 =>
        match parseRuleTail cs2 with
        | some (name, ms, [']']) =>
          some (String.mk (cs.takeWhile isAlnumC), String.mk ('#' :: (name ++ ms ++ ['#'])))
        | _ => none
      | _ => none
  | _ => none

/-- Anchored `getOnlyKeylessRuleActionRegex`
`^\[(#[[:alnum:]]+(?:\.[^.#]+)*#)\]$`. -/
def onlyKeylessRuleParse (s : String) : Option String :=
  match s.data with
  | '[' :: '#' :: cs =>
    match parseRuleTail cs with
    | some (name, ms, [']']) => some (String.mk ('#' :: (name ++ ms ++ ['#'])))
    | _ => none
  | _ => none

/-- Matcher for the action blob `(?:\[.*\])+` (ECMAScript `.`, so line
terminators are excluded inside a bracket pair). -/
def blobMatchF : Nat → List Char → Bool
  | 0, _ => false
  | fuel + 1, cs =>
    match cs with
    | '[' :: cs1 =>
      (List.range (cs1.takeWhile isDotC).length).any (fun j =>
        cs1.get? j = some ']' &&
        ((cs1.drop (j + 1)).isEmpty || blobMatchF fuel (cs1.drop (j + 1))))
    | _ => false

def blobMatch (cs : List Char) : Bool := blobMatchF cs.length cs

/-- Longest-first split search for `getOnlyRuleWithActionsRegex`:
the greedy action blob captures up to the last closing bracket that
leaves a matchable `name mods #` tail. -/
def orwaTry (cs : List Char) : Nat → Option (List Char × List Char × List Char)
  | 0 => none
  | i + 1 =>
    if blobMatch (cs.take (i + 1)) then
      match parseRuleTail (cs.drop (i + 1)) with
      | some (name, ms, []) => some (cs.take (i + 1), name, ms)
      | _ => orwaTry cs i
    else orwaTry cs i

/-- Anchored `getOnlyRuleWithActionsRegex`
`^#((?:\[.*\])+)([[:alnum:]]+)((?:\.[^.#]+)*)#$`, returning the action
blob, rule name and modifier captures. -/
def onlyRuleWithActionsParse (s : String) : Option (String × String × String) :=
  match s.data with
  | '#' :: cs =>
    match orwaTry cs cs.length with
    | some (g, name, ms) => some (String.mk g, String.mk name, String.mk ms)
    | none => none
  | _ => none


/-- commaFieldsF splits on every comma, keeping all (possibly empty)
fields. -/
def commaFieldsF : Nat → List Char → List String
  | 0, cs => [String.mk cs]
  | fuel + 1, cs =>
    match cs.dropWhile (fun c => c ≠ ',') with
    | [] => [String.mk cs]
    | _ :: rest =>
      String.mk (cs.takeWhile (fun c => c ≠ ',')) :: commaFieldsF fuel rest

/-- commaSplit models `sregex_token_iterator` with the comma regex and
index -1: with no match the whole (possibly empty) sequence is one
token; otherwise the prefixes of all matches (even empty) plus the final
suffix when it is non-empty. -/
def commaSplit (s : String) : List String :=
  match commaFieldsF (s.data.length + 1) s.data with
  | [] => []
  | [p] => [p]
  | parts => if parts.getLast? = some "" then parts.dropLast else parts

/-- modsTokensChars models the token iteration of `getModifierRegex`
(`\.([^\.]+)`, whole-match tokens) combined with the `substr(1)` of the
consuming lambda in `expandNode`: the dot-separated modifier names. -/
def modsTokensF : Nat → List Char → List String
  | 0, _ => []
  | fuel + 1, cs =>
    match cs with
    | [] => []
    | '.' :: cs' =>
      if (cs'.takeWhile (fun c => c ≠ '.')).isEmpty then modsTokensF fuel cs'
      else
        String.mk (cs'.takeWhile (fun c => c ≠ '.')) ::
          modsTokensF fuel (cs'.dropWhile (fun c => c ≠ '.'))
    | _ :: cs' => modsTokensF fuel cs'

def modsSplit (s : String) : List String := modsTokensF s.data.length s.data

/-- parametricParse models the anchored match of
`getParametricModifierRegex` `([^\(]+)\(([^\)]*)\)` with its two
captures (modifier name, parameter-list text). -/
def parametricParse (s : String) : Option (String × String) :=
  if ((s.data.takeWhile (fun c => c ≠ '(')).isEmpty) then none
  else
    match s.data.dropWhile (fun c => c ≠ '(') with
    | '(' :: cs2 =>
      match cs2.dropWhile (fun c => c ≠ ')') with
      | [')'] =>
        some (String.mk (s.data.takeWhile (fun c => c ≠ '(')),
              String.mk (cs2.takeWhile (fun c => c ≠ ')')))
      | _ => none
    | _ => none

/-- parseModToken implements the per-token modifier handling of
`TreeNode::flatten`: split a parametric token into name and parameters,
clearing the special `name()` case to zero parameters. -/
def parseModToken (mod : String) : String × List String :=
  match parametricParse mod with
  | some (name, paramsStr) =>
    let params := commaSplit paramsStr
    if params.length = 1 && params.headD "x" = "" then (name, [])
    else (name, params)
  | none => (mod, [])

def containsOnlyActions (s : String) : Bool := onlyActionsChars s.data
def containsOnlyRule (s : String) : Bool := (onlyRuleParse s).isSome
def containsOnlyRuleWithActions (s : String) : Bool := (onlyRuleWithActionsParse s).isSome
def containsOnlyKeylessRuleAction (s : String) : Bool := (onlyKeylessRuleParse s).isSome
def containsOnlyKeyWithRuleAction (s : String) : Bool := (onlyKeyWithRuleParse s).isSome
def containsOnlyKeyWithTextAction (s : String) : Bool := (onlyKeyWithTextParse s).isSome

/-- computeComplete is the initializer of `TreeNode::isNodeComplete_`:
no rule reference anywhere and not an only-actions fragment. -/
def computeComplete (s : String) : Bool := !containsRule s && !containsOnlyActions s


/-! ## Parse nodes and trees

`TreeNode` is embedded as `PTree`; a node is identified by its path of
child indices from the root, which is a faithful stand-in for
`shared_ptr` identity because every node is owned by exactly one
parent. -/

/-- NodeData models the scalar fields of `TreeNode`. -/
structure NodeData where
  input : String
  complete : Bool
  hidden : Bool
  keyName : Option String
  modifiers : List String
deriving Repr, DecidableEq

/-- PTree models a `TreeNode` together with the subtree it owns. -/
inductive PTree where
  | node (data : NodeData) (children : List PTree)
deriving Repr

def PTree.data : PTree → NodeData
  | .node d _ => d

def PTree.children : PTree → List PTree
  | .node _ cs => cs

/-- mkNode models the `TreeNode` constructor: `isNodeComplete_` is
initialized from the input text, `isNodeHidden_` to false. -/
def mkNode (input : String) : PTree :=
  .node ⟨input, computeComplete input, false, none, []⟩ []

/-- mkChild models the node allocated by `TreeNode::addChild`: a fresh
node whose hidden flag is copied from the parent. -/
def mkChild (parentHidden : Bool) (input : String) : PTree :=
  .node ⟨input, computeComplete input, parentHidden, none, []⟩ []

/-- addChild models `TreeNode::addChild`. -/
def PTree.addChild : PTree → String → PTree
  | .node d cs, s => .node d (cs ++ [mkChild d.hidden s])

/-- areChildrenComplete models `TreeNode::areChildrenComplete`. -/
def areChildrenComplete (cs : List PTree) : Bool :=
  cs.all (fun c => c.data.complete)

/-- lastExpandableIdx models `TreeNode::getLastExpandableChild`: the
index of the rightmost child whose complete flag is false. -/
def lastExpandableIdx : List PTree → Option Nat
  | [] => none
  | c :: cs =>
    match lastExpandableIdx cs with
    | some i => some (i + 1)
    | none => if c.data.complete then none else some 0

/-- Path identifies a node by the child indices leading to it. -/
abbrev Path := List Nat

/-- get? walks a path down the tree. -/
def PTree.get? : PTree → Path → Option PTree
  | t, [] => some t
  | .node _ cs, i :: p =>
    match cs[i]? with
    | some c => c.get? p
    | none => none

/-- setAt replaces the subtree at a path (no-op on a dangling path). -/
def PTree.setAt : PTree → Path → PTree → PTree
  | _, [], s => s
  | .node d cs, i :: p, s =>
    match cs[i]? with
    | some c => .node d (cs.set i (c.setAt p s))
    | none => .node d cs

/-! ## Modifier registry and dispatch -/

/-- arityMsg is the message thrown by `details::CallVector::callVec` on
a parameter-count mismatch. -/
def arityMsg (n m : Nat) : String :=
  "Wrong number of parameters. Expected: " ++ toString n ++ " but received " ++ toString m

/-- Modifier models the `details::ModifierFn` instantiations: the input
capability (string / tree / node input) with the declared parameter
arity of the wrapped function (`sizeof...(Ts)`). A tree modifier reads
and updates the runtime dictionary of the owning tree, which is the only
tree state the source's tree modifiers touch. Wrapped functions receive
their parameters as a list whose length equals the declared arity. -/
inductive Modifier where
  | strMod (arity : Nat) (f : String → List String → String)
  | treeMod (arity : Nat) (f : RuntimeDict → List String → String × RuntimeDict)
  | nodeMod (arity : Nat) (f : PTree → List String → String)

/-- callVecStr models `IModifierFn::callVec(const std::string&, params)`:
string modifiers dispatch through the arity-checked `CallVector`; tree
and node modifiers return the empty string without calling the wrapped
function. -/
def Modifier.callVecStr (m : Modifier) (input : String) (params : List String) :
    Except Err String :=
  match m with
  | .strMod n f =>
    if params.length = n then .ok (f input params)
    else .error (.wrongParameters (arityMsg n params.length))
  | _ => .ok ""

/-- callVecTree models `IModifierFn::callVec(tree, ruleName, params)`:
the rule name is prepended to the parameter list before the arity check;
non-tree modifiers return the empty string and leave the dictionary
untouched. -/
def Modifier.callVecTree (m : Modifier) (d : RuntimeDict) (ruleName : String)
    (params : List String) : Except Err (String × RuntimeDict) :=
  match m with
  | .treeMod n f =>
    if (ruleName :: params).length = n then .ok (f d (ruleName :: params))
    else .error (.wrongParameters (arityMsg n (ruleName :: params).length))
  | _ => .ok ("", d)

/-- callVecNode models `IModifierFn::callVec(node, ruleName, params)`. -/
def Modifier.callVecNode (m : Modifier) (nd : PTree) (ruleName : String)
    (params : List String) : Except Err String :=
  match m with
  | .nodeMod n f =>
    if (ruleName :: params).length = n then .ok (f nd (ruleName :: params))
    else .error (.wrongParameters (arityMsg n (ruleName :: params).length))
  | _ => .ok ""

/-- ModMap models `details::callback_map_t`. -/
def ModMap := List (String × Modifier)

def ModMap.find? (m : ModMap) (k : String) : Option Modifier :=
  match List.find? (fun kv => kv.1 = k) m with
  | some kv => some kv.2
  | none => none

/-- applyMods models the modifier loop of `TreeNode::flatten`: apply
each modifier token in order to the accumulated output, wrapping
parameter errors with the modifier name, the rule name in scope and the
offending fragment. -/
def applyMods (reg : ModMap) (self : PTree) (ruleName input : String) :
    List String → String → RuntimeDict → Except Err (String × RuntimeDict)
  | [], acc, d => .ok (acc, d)
  | mod :: mods, acc, d =>
    match parseModToken mod with
    | (modName, params) =>
      match reg.find? modName with
      | none => applyMods reg self ruleName input mods acc d
      | some mf =>
        let res : Except Err (String × RuntimeDict) :=
          match mf with
          | .strMod n f => (Modifier.callVecStr (.strMod n f) acc params).map (fun s => (s, d))
          | .treeMod n f => Modifier.callVecTree (.treeMod n f) d ruleName params
          | .nodeMod n f => (Modifier.callVecNode (.nodeMod n f) self ruleName params).map (fun s => (s, d))
        match res with
        | .ok (out, d') => applyMods reg self ruleName input mods out d'
        | .error (.wrongParameters w) =>
          .error (.wrongParameters ("Exception while calling modifier: " ++ modName ++
            " on: " ++ ruleName ++ "\n\t" ++ w ++ "\nIn: " ++ input))
        | .error e => .error e

theorem PTree.sizeOf_children_lt (t : PTree) : sizeOf t.children < sizeOf t := by
  cases t with
  | node d cs =>
    simp only [PTree.children, PTree.node.sizeOf_spec]
    omega

mutual

/-- flattenT models `TreeNode::flatten`. -/
def flattenT (reg : ModMap) (d : RuntimeDict) (t : PTree)
    (ignoreHidden ignoreModifiers : Bool) : Except Err (String × RuntimeDict) :=
  if hm : ¬(t.data.modifiers.isEmpty || ignoreModifiers) then
    match flattenT reg d t ignoreHidden true with
    | .error e => .error e
    | .ok (base, d1) =>
      if base.isEmpty then .ok (base, d1)
      else applyMods reg t (ruleReplace1 t.data.input) t.data.input t.data.modifiers base d1
  else
    if t.children.isEmpty then
      if ignoreHidden && t.data.hidden then .ok ("", d)
      else .ok (t.data.input, d)
    else flattenL reg t.data.input d ignoreHidden t.children
termination_by (sizeOf t, if ignoreModifiers then 0 else 1)
decreasing_by
  · apply Prod.Lex.right
    have him : ignoreModifiers = false := by
      revert hm
      cases ignoreModifiers <;> simp
    subst him
    simp
  · apply Prod.Lex.left
    exact PTree.sizeOf_children_lt t

/-- flattenL models the child-aggregation loop of `TreeNode::flatten`,
including the per-child wrapping of parameter errors with the parent's
input text. -/
def flattenL (reg : ModMap) (parentInput : String) (d : RuntimeDict)
    (ignoreHidden : Bool) : List PTree → Except Err (String × RuntimeDict)
  | [] => .ok ("", d)
  | c :: rest =>
    match flattenT reg d c ignoreHidden false with
    | .ok (s, d') =>
      match flattenL reg parentInput d' ignoreHidden rest with
      | .ok (s2, d2) => .ok (s ++ s2, d2)
      | .error e => .error e
    | .error (.wrongParameters w) =>
      .error (.wrongParameters ("Exception while flattening " ++ parentInput ++ "\n" ++ w))
    | .error e => .error e
termination_by cs => (sizeOf cs, 2)
decreasing_by
  · apply Prod.Lex.left
    simp
    omega
  · apply Prod.Lex.left
    simp

end

/-! ## Key handling -/

/-- handleKey models `Tree::handleKey`: when the node carries a key,
flatten its subtree including hidden nodes and push the result onto the
key's stack unless the key is the empty string; parameter errors are
wrapped with the key context. -/
def handleKey (reg : ModMap) (d : RuntimeDict) (t : PTree) :
    Except Err RuntimeDict :=
  match t.data.keyName with
  | none => .ok d
  | some key =>
    match flattenT reg d t false false with
    | .ok (value, d') =>
      .ok (if key.isEmpty then d' else d'.push key (Json.str value))
    | .error (.wrongParameters w) =>
      .error (.wrongParameters
        ("Encountered exception while setting key: " ++ key ++ "\n" ++ w))
    | .error e => .error e

/-! ## Grammar, object handlers, node expansion -/

/-- Grammar models the input json grammar: the members of the top-level
object. -/
def Grammar := List (String × Json)

/-- lookup models `jsonGrammar[ruleName]` at the structured-value
interface boundary: the member's value, null when absent. -/
def Grammar.lookup (g : Grammar) (k : String) : Json :=
  match g.find? (fun kv => kv.1 = k) with
  | some kv => kv.2
  | none => Json.null

/-- ObjHandler models `details::IObjHandler::handleObj`: a function of
the rule contents and the randomness source (rng function and draw
counter). -/
def ObjHandler := Json → (Nat → Nat) → Nat → Except Err (Json × Nat)

/-- wrapHandler models the `details::ObjHandlerFn` wrapper, which
rejects a non-object argument with an unexpected-type error before
invoking the callback. -/
def wrapHandler (f : ObjHandler) : ObjHandler := fun j rng ridx =>
  if ¬j.isObject then
    .error (.unexpectedType ("Error while handling " ++ j.dump ++ ". Expected an object."))
  else f j rng ridx

/-- ObjHandlerMap models `details::obj_handler_map_t`. -/
def ObjHandlerMap := List (String × ObjHandler)

def ObjHandlerMap.find? (m : ObjHandlerMap) (k : String) : Option ObjHandler :=
  match List.find? (fun kv => kv.1 = k) m with
  | some kv => some kv.2
  | none => none

/-- placeholder is the visible stand-in `{{name}}` substituted for an
undefined rule. -/
def placeholder (name : String) : String := "\x7b\x7b" ++ name ++ "\x7d\x7d"

/-- setLastExpandableKey models the write through
`getLastExpandableChild()->keyName` in the keyless-rule-action branch. -/
def setLastExpandableKey (t : PTree) (k : String) : PTree :=
  match t with
  | .node d cs =>
    match lastExpandableIdx cs with
    | some i =>
      match cs[i]? with
      | some (.node cd ccs) => .node d (cs.set i (.node { cd with keyName := some k } ccs))
      | none => .node d cs
    | none => .node d cs

/-- setBackKey models `children.back()->setKeyName(key)` in the
key-with-rule-action branch. -/
def setBackKey (t : PTree) (k : String) : PTree :=
  match t with
  | .node d cs =>
    match cs.getLast? with
    | some (.node cd ccs) => .node d (cs.dropLast ++ [.node { cd with keyName := some k } ccs])
    | none => .node d cs

/-- resolveRule is the rule-contents resolution chain at the head of the
only-rule branch of `TreeNode::expandNode`: runtime dictionary first,
then the grammar, then the undefined-rule placeholder. -/
def resolveRule (d : RuntimeDict) (g : Grammar) (ruleName : String) : Json :=
  let rc0 :=
    match d.findStack ruleName with
    | some s => s.headD Json.null
    | none => Json.null
  let rc1 := if rc0.isNull then g.lookup ruleName else rc0
  if rc1.isNull then Json.str (placeholder ruleName) else rc1

/-- expandSub models `TreeNode::expandNode` applied to the subtree
rooted at the node being expanded: it returns the updated subtree, the
updated runtime dictionary, and the updated randomness counter. -/
def expandSub (g : Grammar) (handlers : ObjHandlerMap) (rng : Nat → Nat)
    (d : RuntimeDict) (ridx : Nat) (t : PTree) :
    Except Err (PTree × RuntimeDict × Nat) :=
  if t.data.complete then .ok (t, d, ridx)
  else if let some (ruleName, modsStr) := onlyRuleParse t.data.input then
    let mods := modsSplit modsStr
    let rc := resolveRule d g ruleName
    let emit : String → Nat → Except Err (PTree × RuntimeDict × Nat) := fun output ridx' =>
      let t1 : PTree := .node { t.data with modifiers := t.data.modifiers ++ mods } t.children
      .ok (t1.addChild output, d, ridx')
    match rc with
    | .str s => emit s ridx
    | .arr xs =>
      -- UniformIntDistributionT dist(0, size - 1); output = contents[dist(rng)]
      if xs.isEmpty then .error (.jsonTypeError "uniform selection over an empty array")
      else
        match xs[(rng ridx) % xs.length]? with
        | some (.str s) => emit s (ridx + 1)
        | some v => .error (.jsonTypeError ("type must be string, but is " ++ v.dump))
        | none => .error (.jsonTypeError "index out of range")
    | .obj fields =>
      if ¬(Json.obj fields).hasField "handler" then
        .error (.badHandler ("Object " ++ (Json.obj fields).dump ++
          " does not contain a handler member"))
      else
        match ((Json.obj fields).lookupField "handler").asString with
        | none => .error (.jsonTypeError "handler name is not a string")
        | some handlerName =>
          match handlers.find? handlerName with
          | none =>
            .error (.badHandler ("Object " ++ (Json.obj fields).dump ++
              " uses undefined handler: " ++ handlerName))
          | some h =>
            match h (Json.obj fields) rng ridx with
            | .error e => .error e
            | .ok (res, ridx') =>
              match res.asString with
              | some s => emit s ridx'
              | none =>
                .error (.badHandler ("Object handler: " ++ handlerName ++
                  " operating on: " ++ (Json.obj fields).dump ++
                  " returned non-string value: " ++ res.dump))
    | _ => emit "" ridx
  else if let some (actions, ruleName, modsStr) := onlyRuleWithActionsParse t.data.input then
    -- child one: the extracted actions; child two: the rule (with its
    -- modifiers, capture `$2$3`) re-wrapped in octothorpes
    .ok ((t.addChild actions).addChild ("#" ++ ruleName ++ modsStr ++ "#"), d, ridx)
  else if let some rule := onlyKeylessRuleParse t.data.input then
    .ok (setLastExpandableKey (t.addChild rule) "", d, ridx)
  else if let some (key, rule) := onlyKeyWithRuleParse t.data.input then
    let t1 : PTree := .node { t.data with hidden := true } t.children
    .ok (setBackKey (t1.addChild rule) key, d, ridx)
  else if let some (key, txt) := onlyKeyWithTextParse t.data.input then
    let t1 : PTree := .node { t.data with hidden := true } t.children
    let arr := Json.arr ((commaSplit txt).map Json.str)
    .ok (t1, d.push key arr, ridx)
  else if containsOnlyActions t.data.input then
    let toks := (actionTokensChars t.data.input.data).filter (fun a => ¬a.isEmpty)
    .ok (toks.foldl PTree.addChild t, d, ridx)
  else
    let toks := (ruleTokensChars t.data.input.data).filter (fun a => ¬a.isEmpty)
    .ok (toks.foldl PTree.addChild t, d, ridx)

/-! ## The expansion engine -/

/-- ExpState models the mutable state of `Tree`: the node tree, the
runtime dictionary, the stack of in-progress nodes (as paths), and the
randomness draw counter. -/
structure ExpState where
  tree : PTree
  dict : RuntimeDict
  stack : List Path
  ridx : Nat

/-- childrenAt lists the children of the node at a path. -/
def childrenAt (t : PTree) (p : Path) : List PTree :=
  match t.get? p with
  | some (.node _ cs) => cs
  | none => []

/-- lastExpandablePath is `getLastExpandableChild` of the node at `p`,
as a path. -/
def lastExpandablePath (t : PTree) (p : Path) : Option Path :=
  match t.get? p with
  | some (.node _ cs) =>
    match lastExpandableIdx cs with
    | some i => some (p ++ [i])
    | none => none
  | none => none

/-- incompleteIdxs lists the indices of the not-complete children, in
document order. -/
def incompleteIdxs : List PTree → List Nat
  | [] => []
  | c :: cs =>
    (if c.data.complete then [] else [0]) ++ (incompleteIdxs cs).map (fun i => i + 1)

/-- incompleteChildPaths lists the paths of the not-complete children of
the node at `p`, in document order (the reverse-order pushes of
`Tree::expand` leave exactly this document order on the stack, leftmost
on top). -/
def incompleteChildPaths (t : PTree) (p : Path) : List Path :=
  (incompleteIdxs (childrenAt t p)).map (fun i => p ++ [i])

/-- expandAt runs `expandNode` on the node a path points to. -/
def expandAt (g : Grammar) (handlers : ObjHandlerMap) (rng : Nat → Nat)
    (t : PTree) (d : RuntimeDict) (ridx : Nat) (p : Path) :
    Except Err (PTree × RuntimeDict × Nat) :=
  match t.get? p with
  | none => .ok (t, d, ridx)
  | some sub =>
    match expandSub g handlers rng d ridx sub with
    | .ok (sub', d', r') => .ok (t.setAt p sub', d', r')
    | .error e => .error e

/-- unwind models the ancestor-popping loop of `Tree::expand`: while the
stack top's last expandable child is the node just resolved, pop it and
bind its key as well. -/
def unwind (reg : ModMap) (t : PTree) (d : RuntimeDict) :
    Path → List Path → Except Err (RuntimeDict × List Path)
  | _, [] => .ok (d, [])
  | popped, q :: rest =>
    if lastExpandablePath t q = some popped then
      match t.get? q with
      | some qn =>
        match handleKey reg d qn with
        | .ok d' => unwind reg t d' q rest
        | .error e => .error e
      | none => .ok (d, q :: rest)
    else .ok (d, q :: rest)

/-- expandStep models `Tree::expand`: one step of the incremental
depth-first expansion; the returned flag tells whether unexpanded work
may remain. -/
def expandStep (g : Grammar) (reg : ModMap) (handlers : ObjHandlerMap)
    (rng : Nat → Nat) (st : ExpState) : Except Err (ExpState × Bool) :=
  let stack0 :=
    if st.stack.isEmpty then
      if ¬(st.tree.data.complete || ¬st.tree.children.isEmpty) then [([] : Path)]
      else []
    else st.stack
  match stack0 with
  | [] => .ok (st, false)
  | p :: rest =>
    match expandAt g handlers rng st.tree st.dict st.ridx p with
    | .error e => .error e
    | .ok (t', d', r') =>
      if areChildrenComplete (childrenAt t' p) then
        match t'.get? p with
        | some pn =>
          match handleKey reg d' pn with
          | .error e => .error e
          | .ok d2 =>
            match unwind reg t' d2 p rest with
            | .ok (d3, stack') => .ok (⟨t', d3, stack', r'⟩, ¬stack'.isEmpty)
            | .error e => .error e
        | none => .ok (⟨t', d', p :: rest, r'⟩, true)
      else
        let stack' := incompleteChildPaths t' p ++ p :: rest
        .ok (⟨t', d', stack', r'⟩, ¬stack'.isEmpty)

/-! ## Grammar-level operations -/

/-- initState models the `Tree` constructor: a root node built from the
input text, and a runtime dictionary seeded by pushing every top-level
grammar rule. -/
def initState (g : Grammar) (input : String) : ExpState :=
  ⟨mkNode input, g.foldl (fun d kv => d.push kv.1 kv.2) RuntimeDict.emptyDict, [], 0⟩

/-- runExpand iterates `expandStep` until it reports no remaining work,
bounded by fuel (`Grammar::getExpandedTree` loops unboundedly; cyclic
grammars make it diverge, which fuel exhaustion represents). -/
def runExpand (g : Grammar) (reg : ModMap) (handlers : ObjHandlerMap)
    (rng : Nat → Nat) : Nat → ExpState → Except Err ExpState
  | 0, st => .ok st
  | fuel + 1, st =>
    match expandStep g reg handlers rng st with
    | .ok (st', true) => runExpand g reg handlers rng fuel st'
    | .ok (st', false) => .ok st'
    | .error e => .error e

/-- grammarFlatten models `Grammar::flatten`: build the tree, expand it
to completion, then flatten it with hidden suppression. -/
def grammarFlatten (g : Grammar) (reg : ModMap) (handlers : ObjHandlerMap)
    (rng : Nat → Nat) (fuel : Nat) (input : String) : Except Err String :=
  match runExpand g reg handlers rng fuel (initState g input) with
  | .error e => .error e
  | .ok st =>
    match flattenT reg st.dict st.tree true false with
    | .ok (s, _) => .ok s
    | .error e => .error e

/-- popModifier is the `pop!!` entry of `getBaseExtendedModifiers`: a
tree modifier whose wrapped function takes one parameter (the rule
name) and pops the top binding of that rule's stack. -/
def popModifier : Modifier :=
  .treeMod 1 (fun d args => ("", d.popBang (args.headD "")))

/-- baseExtendedModifiers models `getBaseExtendedModifiers`. -/
def baseExtendedModifiers : ModMap := [("pop!!", popModifier)]


/-! ## Invariant and run-relation definitions -/

/-- leadsTo p q holds when p is a (not necessarily strict) ancestor path
of q. -/
def leadsTo : Path → Path → Bool
  | [], _ => true
  | _, [] => false
  | a :: p, b :: q => a = b && leadsTo p q

/-- NodeShapeOK collects the node-local facts established by one
`expandNode` call on a childless node: the input text and complete flag
are untouched, the hidden flag is never cleared, and every created
child is a fresh childless node carrying the node's (final) hidden flag
and the constructor-computed complete flag. -/
def NodeShapeOK (dat : NodeData) (t' : PTree) : Prop :=
  t'.data.input = dat.input ∧
  t'.data.complete = dat.complete ∧
  (dat.hidden = true → t'.data.hidden = true) ∧
  ∀ c ∈ t'.children, c.children = [] ∧ c.data.hidden = t'.data.hidden ∧
    c.data.complete = computeComplete c.data.input

/-- StackMem: a stack entry points at an existing, not-complete node. -/
def StackMem (t : PTree) (p : Path) : Prop :=
  ∃ n, t.get? p = some n ∧ n.data.complete = false

/-- Linked t u q: whenever the stack element q (directly below u) has
children, its last expandable child is exactly u. This is the shape the
unwinding loop of `Tree::expand` relies on. -/
def Linked (t : PTree) (u q : Path) : Prop :=
  childrenAt t q ≠ [] → lastExpandablePath t q = some u

/-- GoodStack: the invariant of the expansion stack (top first). -/
structure GoodStack (t : PTree) (l : List Path) : Prop where
  mem : ∀ p ∈ l, StackMem t p
  top : ∀ p rest, l = p :: rest → childrenAt t p = []
  chain : l.Chain' (Linked t)
  nodup : l.Nodup

/-- HClosed: every hidden node's children are hidden (so hiddenness is
hereditary over the subtree, claim C9's consequence). -/
inductive HClosed : PTree → Prop
  | node (d : NodeData) (cs : List PTree) :
      (d.hidden = true → ∀ c ∈ cs, c.data.hidden = true) →
      (∀ c ∈ cs, HClosed c) → HClosed (.node d cs)

/-- StepObs: the per-node observations preserved by one engine step
(complete flag and input text unchanged, hidden never cleared). -/
def StepObs (t t' : PTree) : Prop :=
  ∀ q n, t.get? q = some n → ∃ n', t'.get? q = some n' ∧
    n'.data.complete = n.data.complete ∧ n'.data.input = n.data.input ∧
    (n.data.hidden = true → n'.data.hidden = true)

/-- TreeEvo: how one engine step changes the tree — not at all, or by
rewriting one childless node into a same-data node with fresh childless
children. -/
def TreeEvo (t t' : PTree) : Prop :=
  t' = t ∨ ∃ p dat sd scs, t.get? p = some (.node dat []) ∧
    NodeShapeOK dat (.node sd scs) ∧
    t' = t.setAt p (.node sd scs)

/-- EngineInv: the stack and hiddenness invariants of `Tree`. -/
def EngineInv (st : ExpState) : Prop :=
  GoodStack st.tree st.stack ∧ HClosed st.tree

/-- StepRel: one successful `Tree::expand` call. -/
def StepRel (g : Grammar) (reg : ModMap) (handlers : ObjHandlerMap)
    (rng : Nat → Nat) (st st2 : ExpState) : Prop :=
  ∃ b, expandStep g reg handlers rng st = .ok (st2, b)

/-- Reachable: the states the expansion loop can pass through, starting
from the `Tree` constructor on `input`. -/
def Reachable (g : Grammar) (reg : ModMap) (handlers : ObjHandlerMap)
    (rng : Nat → Nat) (input : String) (st : ExpState) : Prop :=
  Relation.ReflTransGen (StepRel g reg handlers rng) (initState g input) st

/-- DataConsistent: every node's complete flag has the value the TreeNode
constructor computed from its text. -/
def DataConsistent (t : PTree) : Prop :=
  ∀ q n, t.get? q = some n → n.data.complete = computeComplete n.data.input

/-- ModsShape: the strings produced by the modifier-list pattern
`(?:\.[^.#]+)*`. -/
inductive ModsShape : List Char → Prop
  | nil : ModsShape []
  | cons (b ms : List Char) : b ≠ [] → (∀ c ∈ b, modChar c = true) →
      ModsShape ms → ModsShape ('.' :: (b ++ ms))

def c3g : Grammar := [("a", Json.str "#b#")]


/-! ## Helper lemmas -/

@[simp] theorem Json.isNull_null : (Json.null).isNull = true := rfl

theorem commaFieldsF_ne_nil (fuel : Nat) (cs : List Char) : commaFieldsF fuel cs ≠ [] := by
  cases fuel with
  | zero => simp [commaFieldsF]
  | succ n =>
    simp only [commaFieldsF]
    split <;> simp

theorem commaSplit_ne_nil (s : String) : commaSplit s ≠ [] := by
  rw [commaSplit.eq_def]
  split
  case h_1 heq => exact absurd heq (commaFieldsF_ne_nil _ _)
  case h_2 => simp
  case h_3 =>
    rename_i hone
    split
    · rcases hcf : commaFieldsF (s.data.length + 1) s.data with - | ⟨a, tl⟩
      · exact absurd hcf (commaFieldsF_ne_nil _ _)
      · rcases tl with - | ⟨b, rest⟩
        · exact absurd hcf (hone a)
        · simp
    · exact commaFieldsF_ne_nil _ _

/-! ## Claim theorems -/

/-- C10: a registered modifier invoked through an input kind it was not
declared for returns the empty string without consulting the wrapped
function: a tree- or node-input modifier yields "" under string-input
dispatch, and a string-input modifier yields "" under tree- or
node-input dispatch (likewise a node modifier under tree dispatch and
vice versa); the dictionary is returned untouched and no case yields an
error, for every wrapped function and every argument. -/
theorem c10_mismatched_dispatch_is_empty :
    (∀ n f input params, Modifier.callVecStr (.treeMod n f) input params = .ok "") ∧
    (∀ n f input params, Modifier.callVecStr (.nodeMod n f) input params = .ok "") ∧
    (∀ n f d rn ps, Modifier.callVecTree (.strMod n f) d rn ps = .ok ("", d)) ∧
    (∀ n f d rn ps, Modifier.callVecTree (.nodeMod n f) d rn ps = .ok ("", d)) ∧
    (∀ n f nd rn ps, Modifier.callVecNode (.strMod n f) nd rn ps = .ok "") ∧
    (∀ n f nd rn ps, Modifier.callVecNode (.treeMod n f) nd rn ps = .ok "") := by
  refine ⟨?_, ?_, ?_, ?_, ?_, ?_⟩ <;> intros <;> rfl

/-- C4: starting from any dictionary state, binding `k` to `v1`, then
rebinding to `v2`, then applying `pop!!` on `k` (shown both as the
registered tree modifier and its effect) makes the lookup of `k` yield
`v1` again; when `k` had no prior runtime stack, a second `pop!!`
removes the binding entirely, and rule resolution then yields the
grammar's static rule named `k`, or the `{{k}}` placeholder when the
grammar defines none. -/
theorem c4_pop_roundtrip (g : Grammar) (d : RuntimeDict) (k : String) (v1 v2 : Json)
    (hfree : d k = []) :
    (Modifier.callVecTree popModifier ((d.push k v1).push k v2) k [] =
      .ok ("", ((d.push k v1).push k v2).popBang k)) ∧
    ((((d.push k v1).push k v2).popBang k).topVal k = v1) ∧
    (((((d.push k v1).push k v2).popBang k).popBang k).findStack k = none) ∧
    ((g.lookup k).isNull = false →
      resolveRule ((((d.push k v1).push k v2).popBang k).popBang k) g k = g.lookup k) ∧
    ((g.lookup k).isNull = true →
      resolveRule ((((d.push k v1).push k v2).popBang k).popBang k) g k =
        Json.str (placeholder k)) := by
  have hpush : ((d.push k v1).push k v2) k = v2 :: v1 :: d k := by
    simp [RuntimeDict.push]
  have hd3k : (((d.push k v1).push k v2).popBang k) k = v1 :: d k := by
    rw [RuntimeDict.popBang.eq_def, hpush]
    simp
  have hd4k : ((((d.push k v1).push k v2).popBang k).popBang k) k = d k := by
    conv_lhs => rw [RuntimeDict.popBang.eq_def, hd3k]
    simp
  refine ⟨rfl, ?_, ?_, ?_, ?_⟩
  · rw [RuntimeDict.topVal, hd3k]
    rfl
  · rw [RuntimeDict.findStack.eq_def, hd4k, hfree]
  · intro hg
    simp [resolveRule, RuntimeDict.findStack, hd4k, hfree, hg]
  · intro hg
    simp [resolveRule, RuntimeDict.findStack, hd4k, hfree, hg]

/-- c4 witness at a concrete instance. -/
theorem c4_pop_roundtrip_witness :
    (RuntimeDict.emptyDict "k" = []) ∧
    ((((RuntimeDict.emptyDict.push "k" (Json.str "a")).push "k"
        (Json.str "b")).popBang "k").topVal "k" = Json.str "a") := by
  refine ⟨rfl, ?_⟩
  exact (c4_pop_roundtrip [("k", Json.str "gv")] RuntimeDict.emptyDict "k"
    (Json.str "a") (Json.str "b") rfl).2.1

/-- C5: expanding a node classified as only-rule whose rule name has no
runtime binding and no grammar rule does not produce an error: the node
gets exactly one child whose text is the visible placeholder
`{{name}}`, with the fragment's modifiers recorded on the node. -/
theorem c5_undefined_rule_placeholder
    (g : Grammar) (handlers : ObjHandlerMap) (rng : Nat → Nat)
    (d : RuntimeDict) (ridx : Nat) (dat : NodeData) (name modsStr : String)
    (hc : dat.complete = false)
    (hp : onlyRuleParse dat.input = some (name, modsStr))
    (hd : d name = [])
    (hg : g.lookup name = Json.null) :
    expandSub g handlers rng d ridx (.node dat []) =
      .ok (.node { dat with modifiers := dat.modifiers ++ modsSplit modsStr }
            [mkChild dat.hidden (placeholder name)], d, ridx) := by
  have hres : resolveRule d g name = Json.str (placeholder name) := by
    simp [resolveRule, RuntimeDict.findStack, hd, hg, Json.isNull]
  simp [expandSub, PTree.data, hc, hp, hres, PTree.addChild, PTree.children]

/-- c5 witness at a concrete instance. -/
theorem c5_undefined_rule_placeholder_witness :
    ((mkNode "#foo.s#").data.complete = false) ∧
    (expandSub [] [] (fun _ => 0) RuntimeDict.emptyDict 0 (mkNode "#foo.s#") =
      .ok (.node ⟨"#foo.s#", false, false, none, ["s"]⟩
            [mkChild false "\x7b\x7bfoo\x7d\x7d"], RuntimeDict.emptyDict, 0)) := by
  refine ⟨rfl, ?_⟩
  exact c5_undefined_rule_placeholder [] [] (fun _ => 0) RuntimeDict.emptyDict 0
    (mkNode "#foo.s#").data "foo" ".s" rfl rfl rfl rfl

/-- C1 counterexample: expanding the key-with-text node `[key:a,b]`
binds the key and hides the node but creates no children at all, while
the claim requires one child per comma token (here two); consequently
the action's own subtree is the bare action node, whose flattened text
is its raw input, not the literal text `a,b`. -/
theorem c1_counterexample :
    (expandSub [] [] (fun _ => 0) RuntimeDict.emptyDict 0 (mkNode "[key:a,b]") =
      .ok (.node ⟨"[key:a,b]", false, true, none, []⟩ [],
        RuntimeDict.emptyDict.push "key" (Json.arr [Json.str "a", Json.str "b"]), 0)) ∧
    (commaSplit "a,b").length = 2 ∧
    (flattenT [] RuntimeDict.emptyDict (.node ⟨"[key:a,b]", false, true, none, []⟩ [])
        false false = .ok ("[key:a,b]", RuntimeDict.emptyDict)) := by
  refine ⟨rfl, rfl, ?_⟩
  rw [flattenT.eq_def]
  simp [PTree.data, PTree.children]

/-- C1 amended: expanding a node classified as key-with-text-action
marks it hidden and binds the key in the runtime dictionary to the
array of comma-separated literal tokens (one or more), but creates no
child nodes; the node's children are left exactly as they were. -/
theorem c1_amended_key_with_text
    (g : Grammar) (handlers : ObjHandlerMap) (rng : Nat → Nat)
    (d : RuntimeDict) (ridx : Nat) (dat : NodeData) (cs : List PTree)
    (key txt : String)
    (hc : dat.complete = false)
    (h1 : onlyRuleParse dat.input = none)
    (h2 : onlyRuleWithActionsParse dat.input = none)
    (h3 : onlyKeylessRuleParse dat.input = none)
    (h4 : onlyKeyWithRuleParse dat.input = none)
    (hp : onlyKeyWithTextParse dat.input = some (key, txt)) :
    expandSub g handlers rng d ridx (.node dat cs) =
      .ok (.node { dat with hidden := true } cs,
        d.push key (Json.arr ((commaSplit txt).map Json.str)), ridx) ∧
    commaSplit txt ≠ [] := by
  refine ⟨?_, commaSplit_ne_nil txt⟩
  simp [expandSub, PTree.data, PTree.children, hc, h1, h2, h3, h4, hp]

/-- c1 amended witness at a concrete instance. -/
theorem c1_amended_key_with_text_witness :
    ((mkNode "[mood:happy]").data.complete = false) ∧
    (expandSub [] [] (fun _ => 0) RuntimeDict.emptyDict 0 (mkNode "[mood:happy]") =
      .ok (.node ⟨"[mood:happy]", false, true, none, []⟩ [],
        RuntimeDict.emptyDict.push "mood" (Json.arr [Json.str "happy"]), 0)) := by
  refine ⟨rfl, ?_⟩
  exact (c1_amended_key_with_text [] [] (fun _ => 0) RuntimeDict.emptyDict 0
    (mkNode "[mood:happy]").data [] "mood" "happy" rfl rfl rfl rfl rfl rfl).1

/-- C8: the whole build-expand-flatten pipeline is deterministic: two
runs over the same grammar, registries and start text whose injected
randomness sources produce the same value sequence yield identical
results. -/
theorem c8_pipeline_determinism (g : Grammar) (reg : ModMap) (handlers : ObjHandlerMap)
    (r1 r2 : Nat → Nat) (fuel : Nat) (input : String)
    (h : ∀ n, r1 n = r2 n) :
    grammarFlatten g reg handlers r1 fuel input =
      grammarFlatten g reg handlers r2 fuel input := by
  have heq : r1 = r2 := funext h
  rw [heq]

/-- c8 witness: two syntactically different randomness sources with the
same value sequence produce the same output on a concrete grammar. -/
theorem c8_pipeline_determinism_witness :
    grammarFlatten [("rule", Json.arr [Json.str "one", Json.str "two"])] [] []
        (fun n => n % 2) 16 "#rule#" =
      grammarFlatten [("rule", Json.arr [Json.str "one", Json.str "two"])] [] []
        (fun n => (n + 2) % 2) 16 "#rule#" := by
  exact c8_pipeline_determinism _ [] [] _ _ 16 "#rule#" (fun n => by omega)

/-- C6: parameter-arity errors are raised and propagated with context.
First: flattening a node whose modifier token names a registered
string modifier whose declared arity differs from the supplied
parameter count yields a WrongParametersException (never output)
whose message carries the modifier name, the rule name in scope and the
offending fragment, wrapping the CallVector arity message.  Second: a
flatten of a parent node whose child flatten raises a parameter error
rethrows it with the parent fragment appended.  Third: binding a key
over a subtree whose flatten raises a parameter error rethrows it with
the key appended.  Parameter errors are never swallowed into output. -/
theorem c6_arity_error_propagation :
    (∀ (reg : ModMap) (d : RuntimeDict) (dat : NodeData) (c tok modName : String)
       (params : List String) (n : Nat) (f : String → List String → String) (ih : Bool),
      dat.modifiers = [tok] →
      parseModToken tok = (modName, params) →
      reg.find? modName = some (.strMod n f) →
      params.length ≠ n →
      c ≠ "" →
      flattenT reg d (.node dat [.node ⟨c, true, false, none, []⟩ []]) ih false =
        .error (.wrongParameters ("Exception while calling modifier: " ++ modName ++
          " on: " ++ ruleReplace1 dat.input ++ "\n\t" ++ arityMsg n params.length ++
          "\nIn: " ++ dat.input))) ∧
    (∀ (reg : ModMap) (d : RuntimeDict) (pdat : NodeData) (c : PTree)
       (rest : List PTree) (ih : Bool) (w : String),
      pdat.modifiers = [] →
      flattenT reg d c ih false = .error (.wrongParameters w) →
      flattenT reg d (.node pdat (c :: rest)) ih false =
        .error (.wrongParameters ("Exception while flattening " ++ pdat.input ++
          "\n" ++ w))) ∧
    (∀ (reg : ModMap) (d : RuntimeDict) (t : PTree) (key w : String),
      t.data.keyName = some key →
      flattenT reg d t false false = .error (.wrongParameters w) →
      handleKey reg d t =
        .error (.wrongParameters ("Encountered exception while setting key: " ++ key ++
          "\n" ++ w))) := by
  refine ⟨?_, ?_, ?_⟩
  · intro reg d dat c tok modName params n f ih hm hp hf ha hc
    have hbase : flattenT reg d (.node dat [.node ⟨c, true, false, none, []⟩ []]) ih true =
        .ok (c, d) := by
      have hchild : flattenT reg d (.node ⟨c, true, false, none, []⟩ []) ih false =
          .ok (c, d) := by
        rw [flattenT.eq_def]
        simp [PTree.data, PTree.children]
      rw [flattenT.eq_def]
      simp only [PTree.data, PTree.children]
      rw [dif_neg (by simp)]
      rw [flattenL.eq_def]
      simp [flattenL, hchild]
    have harr : Modifier.callVecStr (.strMod n f) c params =
        .error (.wrongParameters (arityMsg n params.length)) := by
      simp [Modifier.callVecStr, ha]
    have his : c.isEmpty = false := by
      cases hce : c.isEmpty
      · rfl
      · exact absurd ((String.isEmpty_iff c).mp hce) hc
    rw [flattenT.eq_def]
    simp only [PTree.data, PTree.children]
    rw [hm, dif_pos (show ¬(([tok] : List String).isEmpty || false) = true from by simp),
      hbase]
    simp [applyMods, hp, hf, harr, his, Except.map]
  · intro reg d pdat c rest ih w hpm herr
    rw [flattenT.eq_def]
    simp only [PTree.data, PTree.children]
    rw [dif_neg (by simp [hpm])]
    simp [flattenL, herr]
  · intro reg d t key w hk herr
    rw [handleKey.eq_def]
    simp [hk, herr]

/-- c6 witness: a two-parameter modifier invoked with one parameter
raises the wrapped arity error at each level. -/
theorem c6_arity_error_propagation_witness :
    (flattenT [("eris", .strMod 2 (fun s _ => s))] RuntimeDict.emptyDict
        (.node ⟨"#rule.eris(a)#", false, false, none, ["eris(a)"]⟩
          [.node ⟨"output", true, false, none, []⟩ []]) true false =
      .error (.wrongParameters ("Exception while calling modifier: eris on: rule" ++
        "\n\t" ++ "Wrong number of parameters. Expected: 2 but received 1" ++
        "\nIn: #rule.eris(a)#"))) ∧
    (flattenT [("eris", .strMod 2 (fun s _ => s))] RuntimeDict.emptyDict
        (.node ⟨"parent", true, false, none, []⟩
          [.node ⟨"#rule.eris(a)#", false, false, none, ["eris(a)"]⟩
            [.node ⟨"output", true, false, none, []⟩ []]]) true false =
      .error (.wrongParameters ("Exception while flattening parent" ++ "\n" ++
        "Exception while calling modifier: eris on: rule" ++
        "\n\t" ++ "Wrong number of parameters. Expected: 2 but received 1" ++
        "\nIn: #rule.eris(a)#"))) ∧
    (handleKey [("eris", .strMod 2 (fun s _ => s))] RuntimeDict.emptyDict
        (.node ⟨"#rule.eris(a)#", false, false, some "key", ["eris(a)"]⟩
          [.node ⟨"output", true, false, none, []⟩ []]) =
      .error (.wrongParameters ("Encountered exception while setting key: key" ++ "\n" ++
        "Exception while calling modifier: eris on: rule" ++
        "\n\t" ++ "Wrong number of parameters. Expected: 2 but received 1" ++
        "\nIn: #rule.eris(a)#"))) := by
  have h1 := c6_arity_error_propagation.1 [("eris", .strMod 2 (fun s _ => s))]
    RuntimeDict.emptyDict ⟨"#rule.eris(a)#", false, false, none, ["eris(a)"]⟩
    "output" "eris(a)" "eris" ["a"] 2 (fun s _ => s) true rfl rfl rfl (by decide) (by decide)
  refine ⟨h1, ?_, ?_⟩
  · exact c6_arity_error_propagation.2.1 _ RuntimeDict.emptyDict
      ⟨"parent", true, false, none, []⟩ _ [] true _ rfl h1
  · have h1f := c6_arity_error_propagation.1 [("eris", .strMod 2 (fun s _ => s))]
      RuntimeDict.emptyDict ⟨"#rule.eris(a)#", false, false, some "key", ["eris(a)"]⟩
      "output" "eris(a)" "eris" ["a"] 2 (fun s _ => s) false rfl rfl rfl (by decide) (by decide)
    exact c6_arity_error_propagation.2.2 [("eris", .strMod 2 (fun s _ => s))]
      RuntimeDict.emptyDict
      (.node ⟨"#rule.eris(a)#", false, false, some "key", ["eris(a)"]⟩
        [.node ⟨"output", true, false, none, []⟩ []]) "key" _ rfl h1f

/-- C2 counterexample: the fragment `x[y]` contains an action group
(the action-group regex matches the substring `[y]`) and no rule
reference, yet the constructor marks the node complete, because the
source tests only the anchored only-actions pattern. -/
theorem c2_counterexample :
    (mkNode "x[y]").data.complete = true ∧
    actionTokensChars "x[y]".data = ["[y]"] ∧
    containsRule "x[y]" = false := by
  refine ⟨rfl, rfl, rfl⟩

/-! ## Machinery: paths, tree surgery observations -/

@[simp] theorem PTree.data_node (d : NodeData) (cs : List PTree) :
    (PTree.node d cs).data = d := rfl

@[simp] theorem PTree.children_node (d : NodeData) (cs : List PTree) :
    (PTree.node d cs).children = cs := rfl

theorem setAt_get_self {t : PTree} {p : Path} {old : PTree} (s' : PTree)
    (h : t.get? p = some old) : (t.setAt p s').get? p = some s' := by
  induction p generalizing t with
  | nil => simp [PTree.setAt, PTree.get?]
  | cons i p ih =>
    cases t with
    | node d cs =>
      simp only [PTree.get?] at h
      match hci : cs[i]? with
      | none => rw [hci] at h; exact absurd h (by simp)
      | some c =>
        rw [hci] at h
        have hilt : i < cs.length := by
          have := List.getElem?_eq_some.mp hci
          exact this.1
        simp only [PTree.setAt, hci]
        simp only [PTree.get?]
        rw [List.getElem?_set_eq hilt]
        simp only [Option.some.injEq]
        exact ih h

theorem setAt_get_incomparable {t : PTree} {p q : Path} (s' : PTree)
    (hpq : leadsTo p q = false) (hqp : leadsTo q p = false) :
    (t.setAt p s').get? q = t.get? q := by
  induction q generalizing t p with
  | nil => simp [leadsTo] at hqp
  | cons j q ih =>
    cases p with
    | nil => simp [leadsTo] at hpq
    | cons i p =>
      cases t with
      | node d cs =>
        by_cases hij : i = j
        · subst hij
          simp only [leadsTo] at hpq hqp
          simp at hpq hqp
          simp only [PTree.setAt]
          match hci : cs[i]? with
          | none => simp
          | some c =>
            simp only [PTree.get?]
            have hilt : i < cs.length := (List.getElem?_eq_some.mp hci).1
            rw [List.getElem?_set_eq hilt, hci]
            simp only
            exact ih hpq hqp
        · simp only [PTree.setAt]
          match hci : cs[i]? with
          | none => simp
          | some c =>
            simp only [PTree.get?]
            rw [List.getElem?_set_ne hij]
  -- descendant and ancestor cases are handled by the dedicated lemmas

theorem lastExpandableIdx_none_iff (cs : List PTree) :
    lastExpandableIdx cs = none ↔ areChildrenComplete cs = true := by
  induction cs with
  | nil => simp [lastExpandableIdx, areChildrenComplete]
  | cons c cs ih =>
    simp only [lastExpandableIdx, areChildrenComplete, List.all_cons, Bool.and_eq_true]
    match h : lastExpandableIdx cs with
    | some i =>
      simp only
      constructor
      · intro hh; exact absurd hh (by simp)
      · rintro ⟨-, hall⟩
        rw [areChildrenComplete] at ih
        have hn := ih.mpr hall
        rw [h] at hn
        exact absurd hn (by simp)
    | none =>
      have hcc := (ih.mp h)
      rw [areChildrenComplete] at hcc
      simp only [hcc, and_true]
      by_cases hco : c.data.complete
      · simp [hco]
      · simp [hco]

theorem mem_incompleteIdxs {cs : List PTree} {i : Nat} :
    i ∈ incompleteIdxs cs ↔
      ∃ c, cs[i]? = some c ∧ c.data.complete = false := by
  induction cs generalizing i with
  | nil => simp [incompleteIdxs]
  | cons c cs ih =>
    simp only [incompleteIdxs, List.mem_append, List.mem_map]
    constructor
    · rintro (h0 | ⟨j, hj, rfl⟩)
      · by_cases hco : c.data.complete
        · simp [hco] at h0
        · simp [hco] at h0
          subst h0
          exact ⟨c, by simp, by simpa using hco⟩
      · obtain ⟨cj, hcj, hflag⟩ := ih.mp hj
        exact ⟨cj, by simpa using hcj, hflag⟩
    · rintro ⟨cj, hcj, hflag⟩
      match i with
      | 0 =>
        left
        simp at hcj
        subst hcj
        simp [hflag]
      | j + 1 =>
        right
        refine ⟨j, ?_, rfl⟩
        simp at hcj
        exact ih.mpr ⟨cj, hcj, hflag⟩

theorem incompleteIdxs_nil_iff (cs : List PTree) :
    incompleteIdxs cs = [] ↔ areChildrenComplete cs = true := by
  induction cs with
  | nil => simp [incompleteIdxs, areChildrenComplete]
  | cons c cs ih =>
    simp only [incompleteIdxs, List.append_eq_nil, List.map_eq_nil_iff,
      areChildrenComplete, List.all_cons, Bool.and_eq_true]
    rw [areChildrenComplete] at ih
    by_cases hco : c.data.complete
    · simp [hco, ih]
    · simp [hco]

theorem lastExpandableIdx_eq_getLast (cs : List PTree) :
    lastExpandableIdx cs = (incompleteIdxs cs).getLast? := by
  induction cs with
  | nil => simp [lastExpandableIdx, incompleteIdxs]
  | cons c cs ih =>
    simp only [lastExpandableIdx, incompleteIdxs]
    match h : lastExpandableIdx cs with
    | some i =>
      rw [h] at ih
      have hne : incompleteIdxs cs ≠ [] := by
        intro hnil
        rw [hnil] at ih
        simp at ih
      rw [List.getLast?_append_of_ne_nil _ (by simpa using hne)]
      rw [List.getLast?_map]
      rw [← ih]
      rfl
    | none =>
      rw [h] at ih
      have hnil : incompleteIdxs cs = [] := by
        match hx : incompleteIdxs cs with
        | [] => rfl
        | y :: ys =>
          rw [hx] at ih
          have : (y :: ys).getLast? = none := ih.symm
          simp [List.getLast?_eq_none_iff] at this
      rw [hnil]
      simp only [List.map_nil, List.append_nil]
      by_cases hco : c.data.complete
      · simp [hco]
      · simp [hco]

theorem PTree.get?_append (t : PTree) (p r : Path) :
    t.get? (p ++ r) =
      match t.get? p with
      | some u => u.get? r
      | none => none := by
  induction p generalizing t with
  | nil => simp [PTree.get?]
  | cons i p ih =>
    cases t with
    | node d cs =>
      simp only [List.cons_append, PTree.get?]
      match hci : cs[i]? with
      | none => simp
      | some c => exact ih c

theorem leadsTo_iff (p q : Path) : leadsTo p q = true ↔ ∃ r, q = p ++ r := by
  induction p generalizing q with
  | nil => simp [leadsTo]
  | cons i p ih =>
    cases q with
    | nil =>
      simp only [leadsTo]
      constructor
      · intro h; exact absurd h (by simp)
      · rintro ⟨r, hr⟩; exact absurd hr (by simp)
    | cons j q =>
      simp only [leadsTo, Bool.and_eq_true, decide_eq_true_eq]
      rw [ih]
      constructor
      · rintro ⟨rfl, r, rfl⟩; exact ⟨r, rfl⟩
      · rintro ⟨r, hr⟩
        rw [List.cons_append] at hr
        injection hr with h1 h2
        exact ⟨h1.symm ▸ rfl, r, h2⟩

/-- setAt never changes the data of the root unless the path is empty. -/
theorem setAt_data_of_ne_nil {t : PTree} {p : Path} (s' : PTree) (h : p ≠ []) :
    (t.setAt p s').data = t.data := by
  cases p with
  | nil => exact absurd rfl h
  | cons i p =>
    cases t with
    | node d cs =>
      simp only [PTree.setAt]
      match cs[i]? with
      | none => rfl
      | some c => rfl

/-- Strict descendants of a childless node do not exist. -/
theorem get?_descendant_none {t : PTree} {p q : Path} {dat : NodeData}
    (hp : t.get? p = some (.node dat []))
    (hlt : leadsTo p q = true) (hne : q ≠ p) : t.get? q = none := by
  obtain ⟨r, rfl⟩ := (leadsTo_iff p q).mp hlt
  rw [PTree.get?_append, hp]
  match r, hne with
  | [], hne => exact absurd (List.append_nil p) hne
  | i :: r, _ => simp [PTree.get?]

/-- Observation at the rewritten path itself. -/
theorem setAt_get_root_complete {t : PTree} {p : Path} {old s' : PTree}
    (hold : t.get? p = some old)
    (hc : s'.data.complete = old.data.complete) :
    (t.setAt p s').data.complete = t.data.complete := by
  cases p with
  | nil =>
    simp only [PTree.get?] at hold
    injection hold with h
    subst h
    simp [PTree.setAt, hc]
  | cons i p => rw [setAt_data_of_ne_nil _ (by simp)]

/-- Observation at a strict ancestor of the rewritten path: the node
keeps its data, and its children keep their complete flags. -/
theorem setAt_get_ancestor {t : PTree} {p q : Path} {old s' n : PTree}
    (hq : leadsTo q p = true) (hne : q ≠ p)
    (hold : t.get? p = some old)
    (hc : s'.data.complete = old.data.complete)
    (hn : t.get? q = some n) :
    ∃ n', (t.setAt p s').get? q = some n' ∧ n'.data = n.data ∧
      n'.children.map (fun c => c.data.complete) =
        n.children.map (fun c => c.data.complete) := by
  induction q generalizing t p with
  | nil =>
    simp only [PTree.get?] at hn
    injection hn with hn
    match p, hne with
    | [], hne => exact absurd rfl hne
    | i :: p, _ =>
      subst hn
      cases t with
      | node d cs =>
        simp only [PTree.setAt]
        match hci : cs[i]? with
        | none => exact ⟨_, rfl, rfl, rfl⟩
        | some c =>
          refine ⟨_, rfl, rfl, ?_⟩
          simp only [PTree.children_node]
          have hilt : i < cs.length := (List.getElem?_eq_some.mp hci).1
          have hcc : (c.setAt p s').data.complete = c.data.complete := by
            have hcp : c.get? p = some old := by
              simp only [PTree.get?, hci] at hold
              exact hold
            exact setAt_get_root_complete hcp hc
          apply List.ext_getElem?
          intro j
          by_cases hij : i = j
          · subst hij
            rw [List.getElem?_map, List.getElem?_map]
            rw [List.getElem?_set_eq hilt, hci]
            simp [hcc]
          · rw [List.getElem?_map, List.getElem?_map]
            rw [List.getElem?_set_ne hij]
  | cons j q ih =>
    match p, hq, hne with
    | [], hq, hne => simp [leadsTo] at hq
    | i :: p, hq, hne =>
      simp only [leadsTo, Bool.and_eq_true, decide_eq_true_eq] at hq
      obtain ⟨rfl, hq⟩ := hq
      cases t with
      | node d cs =>
        simp only [PTree.get?] at hn hold
        match hci : cs[j]? with
        | none => rw [hci] at hn; exact absurd hn (by simp)
        | some c =>
          rw [hci] at hn hold
          have hilt : j < cs.length := (List.getElem?_eq_some.mp hci).1
          have hne' : q ≠ p := by
            intro hh
            exact hne (by rw [hh])
          obtain ⟨n', hget, hdata, hflags⟩ := ih hq hne' hold hn
          refine ⟨n', ?_, hdata, hflags⟩
          simp only [PTree.setAt, hci, PTree.get?]
          rw [List.getElem?_set_eq hilt]
          exact hget

@[simp] theorem mkChild_children (h : Bool) (s : String) : (mkChild h s).children = [] := rfl

@[simp] theorem mkChild_hidden (h : Bool) (s : String) : (mkChild h s).data.hidden = h := rfl

@[simp] theorem mkChild_complete (h : Bool) (s : String) :
    (mkChild h s).data.complete = computeComplete s := rfl

theorem foldl_addChild (dat : NodeData) (acc : List PTree) (toks : List String) :
    toks.foldl PTree.addChild (.node dat acc) =
      .node dat (acc ++ toks.map (mkChild dat.hidden)) := by
  induction toks generalizing acc with
  | nil => simp
  | cons s toks ih =>
    simp only [List.foldl_cons, PTree.addChild]
    rw [ih]
    simp

theorem shape_of_kids (dat dat' : NodeData) (kids : List String)
    (hi : dat'.input = dat.input) (hc : dat'.complete = dat.complete)
    (hh : dat.hidden = true → dat'.hidden = true) :
    NodeShapeOK dat (.node dat' (kids.map (mkChild dat'.hidden))) := by
  refine ⟨hi, hc, hh, ?_⟩
  intro c hcm
  simp only [PTree.children_node, List.mem_map] at hcm
  obtain ⟨s, hs, rfl⟩ := hcm
  exact ⟨rfl, rfl, rfl⟩

theorem addChild_as_map (dat : NodeData) (s : String) :
    (PTree.node dat []).addChild s = .node dat ([s].map (mkChild dat.hidden)) := rfl

theorem addChild2_as_map (dat : NodeData) (s r : String) :
    ((PTree.node dat []).addChild s).addChild r =
      .node dat ([s, r].map (mkChild dat.hidden)) := rfl

theorem expandSub_shape {g : Grammar} {handlers : ObjHandlerMap} {rng : Nat → Nat}
    {d : RuntimeDict} {ridx : Nat} {dat : NodeData} {res : PTree × RuntimeDict × Nat}
    (h : expandSub g handlers rng d ridx (.node dat []) = .ok res) :
    NodeShapeOK dat res.1 := by
  have hone : ∀ dat' : NodeData, dat'.input = dat.input → dat'.complete = dat.complete →
      (dat.hidden = true → dat'.hidden = true) → ∀ s : String,
      NodeShapeOK dat ((PTree.node dat' []).addChild s) := by
    intro dat' hi hc hh s
    rw [addChild_as_map]
    exact shape_of_kids dat dat' [s] hi hc hh
  rw [expandSub.eq_def] at h
  simp only [PTree.data_node, PTree.children_node] at h
  split at h
  · injection h with h
    subst h
    exact ⟨rfl, rfl, fun hh => hh, by simp⟩
  · split at h
    case h_1 ruleName modsStr hp =>
      -- only-rule branch: every successful arm adds one child to the
      -- node with extended modifiers
      have hk : ∀ (out : String) (r' : Nat),
          (Except.ok ((PTree.node { dat with modifiers := dat.modifiers ++ modsSplit modsStr } []).addChild out,
              d, r') : Except Err (PTree × RuntimeDict × Nat)) = .ok res →
            NodeShapeOK dat res.1 := by
        intro out r' hh
        injection hh with hh
        subst hh
        exact hone _ rfl rfl (fun x => x) out
      split at h
      case h_1 s => exact hk _ _ h
      case h_2 xs =>
        split at h
        · exact absurd h (by simp)
        · split at h
          case h_1 s hget => exact hk _ _ h
          case h_2 => exact absurd h (by simp)
          case h_3 => exact absurd h (by simp)
      case h_3 fields =>
        split at h
        · exact absurd h (by simp)
        · split at h
          case h_1 => exact absurd h (by simp)
          case h_2 handlerName hname =>
            split at h
            · exact absurd h (by simp)
            · split at h
              case h_1 => exact absurd h (by simp)
              case h_2 resv hrun =>
                split at h
                case h_1 s hs => exact hk _ _ h
                case h_2 => exact absurd h (by simp)
      case h_4 => exact hk _ _ h
    case h_2 hp =>
      split at h
      case h_1 arm hq =>
        injection h with h
        subst h
        rw [addChild2_as_map]
        exact shape_of_kids dat dat _ rfl rfl (fun x => x)
      case h_2 hq =>
        split at h
        case h_1 rule hr =>
          injection h with h
          subst h
          rw [addChild_as_map, setLastExpandableKey.eq_def]
          simp only [PTree.children_node]
          split
          case h_1 i hi =>
            split
            case h_1 cd ccs hg =>
              refine ⟨rfl, rfl, fun x => x, ?_⟩
              intro c hcm
              have hi0 : i = 0 := by
                have hlen := hi
                rw [lastExpandableIdx.eq_def] at hlen
                simp only [List.map_cons, List.map_nil, lastExpandableIdx] at hlen
                split at hlen <;> simp_all
              subst hi0
              simp at hg
              simp at hcm
              subst hcm
              have hcd : PTree.node cd ccs = mkChild dat.hidden rule := hg.symm
              rw [mkChild] at hcd
              injection hcd with h1 h2
              subst h1
              subst h2
              exact ⟨rfl, rfl, rfl⟩
            case h_2 => exact shape_of_kids dat dat [rule] rfl rfl (fun x => x)
          case h_2 => exact shape_of_kids dat dat [rule] rfl rfl (fun x => x)
        case h_2 hr =>
          split at h
          case h_1 key rule hkw =>
            injection h with h
            subst h
            rw [addChild_as_map, setBackKey.eq_def]
            simp only [PTree.children_node]
            split
            case h_1 cd ccs hg =>
              simp only [List.map_cons, List.map_nil, List.getLast?_singleton,
                Option.some.injEq] at hg
              refine ⟨rfl, rfl, fun x => rfl, ?_⟩
              intro c hcm
              simp only [PTree.children_node, List.map_cons, List.map_nil,
                List.dropLast_single, List.nil_append, List.mem_singleton] at hcm
              subst hcm
              have hcd : PTree.node cd ccs = mkChild true rule := hg.symm
              rw [mkChild] at hcd
              injection hcd with h1 h2
              subst h1
              subst h2
              exact ⟨rfl, rfl, rfl⟩
            case h_2 =>
              exact shape_of_kids dat { dat with hidden := true } [rule] rfl rfl
                (fun x => rfl)
          case h_2 hkw =>
            split at h
            case h_1 kt hkt =>
              injection h with h
              subst h
              exact ⟨rfl, rfl, fun x => rfl, by simp⟩
            case h_2 hkt =>
              split at h
              all_goals
                injection h with h
                subst h
                rw [foldl_addChild]
                simp only [List.nil_append]
                exact shape_of_kids dat dat _ rfl rfl (fun x => x)

/-! ## The stack invariant of the expansion engine -/

theorem lastExpandableIdx_congr {cs cs' : List PTree}
    (h : cs.map (fun c => c.data.complete) = cs'.map (fun c => c.data.complete)) :
    lastExpandableIdx cs = lastExpandableIdx cs' := by
  induction cs generalizing cs' with
  | nil =>
    cases cs' with
    | nil => rfl
    | cons c' cs' => simp at h
  | cons c cs ih =>
    cases cs' with
    | nil => simp at h
    | cons c' cs' =>
      simp only [List.map_cons, List.cons.injEq] at h
      obtain ⟨h1, h2⟩ := h
      simp only [lastExpandableIdx, ih h2, h1]

/-- Node observations preserved by rewriting a childless node in a way
that keeps its complete flag and input and never clears hidden. -/
theorem preserve_obs {t : PTree} {p : Path} {dat : NodeData} {s' : PTree}
    (hp : t.get? p = some (.node dat []))
    (hc : s'.data.complete = dat.complete)
    (hi : s'.data.input = dat.input)
    (hh : dat.hidden = true → s'.data.hidden = true)
    {q : Path} {n : PTree} (hq : t.get? q = some n) :
    ∃ n', (t.setAt p s').get? q = some n' ∧ n'.data.complete = n.data.complete ∧
      n'.data.input = n.data.input ∧
      (n.data.hidden = true → n'.data.hidden = true) := by
  by_cases hqp : q = p
  · subst hqp
    rw [hq] at hp
    injection hp with hp
    subst hp
    exact ⟨s', setAt_get_self s' hq, by simpa using hc, by simpa using hi,
      by simpa using hh⟩
  · by_cases hanc : leadsTo q p = true
    · obtain ⟨n', h1, h2, -⟩ := setAt_get_ancestor hanc hqp hp (by simpa using hc) hq
      exact ⟨n', h1, by rw [h2], by rw [h2], by rw [h2]; exact fun x => x⟩
    · by_cases hdesc : leadsTo p q = true
      · have hnone := get?_descendant_none hp hdesc hqp
        rw [hnone] at hq
        exact absurd hq (by simp)
      · rw [setAt_get_incomparable s' (Bool.not_eq_true _ ▸ hdesc)
          (Bool.not_eq_true _ ▸ hanc)]
        exact ⟨n, hq, rfl, rfl, fun x => x⟩

/-- The last-expandable-child observation is preserved at every other
valid path. -/
theorem preserve_lastExp {t : PTree} {p : Path} {dat : NodeData} {s' : PTree}
    (hp : t.get? p = some (.node dat []))
    (hc : s'.data.complete = dat.complete)
    {q : Path} {n : PTree} (hq : t.get? q = some n) (hqp : q ≠ p) :
    lastExpandablePath (t.setAt p s') q = lastExpandablePath t q ∧
      (childrenAt (t.setAt p s') q = [] ↔ childrenAt t q = []) := by
  by_cases hanc : leadsTo q p = true
  · obtain ⟨n', h1, h2, h3⟩ := setAt_get_ancestor hanc hqp hp (by simpa using hc) hq
    cases n with
    | node nd ncs =>
      cases n' with
      | node nd' ncs' =>
        simp only [PTree.children_node] at h3
        have hidx : lastExpandableIdx ncs' = lastExpandableIdx ncs :=
          lastExpandableIdx_congr h3
        constructor
        · simp only [lastExpandablePath, h1, hq, hidx]
        · simp only [childrenAt, h1, hq]
          constructor
          · intro hh
            subst hh
            simpa using h3.symm
          · intro hh
            subst hh
            simpa using h3
  · by_cases hdesc : leadsTo p q = true
    · have hnone := get?_descendant_none hp hdesc hqp
      rw [hnone] at hq
      exact absurd hq (by simp)
    · have hsame := setAt_get_incomparable (t := t) s'
        (Bool.not_eq_true _ ▸ hdesc) (Bool.not_eq_true _ ▸ hanc)
      constructor
      · simp only [lastExpandablePath, hsame]
      · simp only [childrenAt, hsame]

/-! ## Hidden closure -/

theorem HClosed.down {t : PTree} (h : HClosed t) :
    ∀ c ∈ t.children, HClosed c := by
  cases h with
  | node d cs h1 h2 => simpa using h2

theorem HClosed.hid {t : PTree} (h : HClosed t) (hh : t.data.hidden = true) :
    ∀ c ∈ t.children, c.data.hidden = true := by
  cases h with
  | node d cs h1 h2 => simpa using h1 hh

theorem HClosed_get {t : PTree} {q : Path} {n : PTree}
    (ht : HClosed t) (hq : t.get? q = some n) : HClosed n := by
  induction q generalizing t with
  | nil =>
    simp only [PTree.get?] at hq
    injection hq with hq
    subst hq
    exact ht
  | cons i q ih =>
    cases t with
    | node d cs =>
      simp only [PTree.get?] at hq
      match hci : cs[i]? with
      | none => rw [hci] at hq; exact absurd hq (by simp)
      | some c =>
        rw [hci] at hq
        have hcm : c ∈ cs := List.getElem?_mem hci
        exact ih (ht.down c (by simpa using hcm)) hq

theorem setAt_data_hidden {t : PTree} {p : Path} {s' : PTree}
    (hmono : ∀ n, t.get? p = some n → (n.data.hidden = true → s'.data.hidden = true)) :
    t.data.hidden = true → (t.setAt p s').data.hidden = true := by
  intro hh
  cases p with
  | nil =>
    simp only [PTree.setAt]
    exact hmono t (by simp [PTree.get?]) hh
  | cons i p =>
    rw [setAt_data_of_ne_nil s' (by simp)]
    exact hh

theorem HClosed_setAt {t : PTree} {p : Path} {s' : PTree}
    (ht : HClosed t) (hs : HClosed s')
    (hmono : ∀ n, t.get? p = some n → (n.data.hidden = true → s'.data.hidden = true)) :
    HClosed (t.setAt p s') := by
  induction p generalizing t with
  | nil => simpa [PTree.setAt] using hs
  | cons i p ih =>
    cases t with
    | node d cs =>
      simp only [PTree.setAt]
      match hci : cs[i]? with
      | none => exact ht
      | some c =>
        have hcm : c ∈ cs := List.getElem?_mem hci
        have hmono' : ∀ n, c.get? p = some n → (n.data.hidden = true → s'.data.hidden = true) := by
          intro n hn
          apply hmono
          simp only [PTree.get?, hci]
          exact hn
        refine HClosed.node d _ ?_ ?_
        · intro hdh c' hc'
          rcases List.mem_or_eq_of_mem_set hc' with hmem | rfl
          · exact ht.hid hdh c' (by simpa using hmem)
          · exact setAt_data_hidden hmono' (ht.hid hdh c (by simpa using hcm))
        · intro c' hc'
          rcases List.mem_or_eq_of_mem_set hc' with hmem | rfl
          · exact ht.down c' (by simpa using hmem)
          · exact ih (ht.down c (by simpa using hcm)) hmono'

theorem chain'_imp_mem {R S : Path → Path → Prop} :
    ∀ (l : List Path), l.Chain' R → (∀ u q, q ∈ l.tail → R u q → S u q) → l.Chain' S
  | [], _, _ => List.chain'_nil
  | [a], _, _ => List.chain'_singleton a
  | a :: b :: l, hch, himp => by
    rw [List.chain'_cons] at hch ⊢
    refine ⟨himp a b (by simp) hch.1, ?_⟩
    exact chain'_imp_mem (b :: l) hch.2 (fun u q hq => himp u q (by simpa using Or.inr hq))

theorem chain'_linked_of_childless {t : PTree} :
    ∀ (l : List Path), (∀ q ∈ l, childrenAt t q = []) → l.Chain' (Linked t)
  | [], _ => List.chain'_nil
  | [a], _ => List.chain'_singleton a
  | a :: b :: l, h => by
    rw [List.chain'_cons]
    refine ⟨fun hne => absurd (h b (by simp)) hne, ?_⟩
    exact chain'_linked_of_childless (b :: l) (fun q hq => h q (by simpa using Or.inr hq))

theorem incompleteIdxs_nodup : ∀ (cs : List PTree), (incompleteIdxs cs).Nodup := by
  intro cs
  induction cs with
  | nil => simp [incompleteIdxs]
  | cons c cs ih =>
    simp only [incompleteIdxs]
    rw [List.nodup_append]
    refine ⟨?_, ih.map (fun a b hab => by omega), ?_⟩
    · by_cases hco : c.data.complete <;> simp [hco]
    · intro x hx hy
      by_cases hco : c.data.complete
      · simp [hco] at hx
      · simp [hco] at hx
        subst hx
        simp only [List.mem_map] at hy
        obtain ⟨z, hz, hzz⟩ := hy
        omega

theorem unwind_good {reg : ModMap} {t : PTree} :
    ∀ (rest : List Path) (popped : Path) (d : RuntimeDict) {d2 : RuntimeDict}
      {stack' : List Path},
      unwind reg t d popped rest = .ok (d2, stack') →
      (∀ q ∈ rest, StackMem t q) →
      List.Chain' (Linked t) (popped :: rest) →
      stack'.IsSuffix rest ∧ (∀ p r2, stack' = p :: r2 → childrenAt t p = []) ∧
        List.Chain' (Linked t) stack' := by
  intro rest
  induction rest with
  | nil =>
    intro popped d d2 stack' h hmem hch
    simp only [unwind] at h
    injection h with h
    injection h with h1 h2
    subst h2
    exact ⟨List.nil_suffix, by simp, List.chain'_nil⟩
  | cons q rest ih =>
    intro popped d d2 stack' h hmem hch
    rw [unwind.eq_def] at h
    simp only at h
    split at h
    · -- the last expandable child of q is the node just resolved: pop q
      split at h
      case h_1 qn hqn =>
        split at h
        case h_1 d' hd' =>
          have hch' : List.Chain' (Linked t) (q :: rest) := hch.tail
          obtain ⟨hsuf, htop, hchn⟩ := ih q d' h (fun r hr => hmem r (by simp [hr])) hch'
          exact ⟨hsuf.trans (List.suffix_cons q rest), htop, hchn⟩
        case h_2 => exact absurd h (by simp)
      case h_2 hqn =>
        obtain ⟨nq, hnq, -⟩ := hmem q (by simp)
        rw [hqn] at hnq
        exact absurd hnq (by simp)
    · -- the loop stops: the new top q is still unexpanded
      rename_i hcond
      injection h with h
      injection h with h1 h2
      subst h2
      have hlink : Linked t popped q := (List.chain'_cons.mp hch).1
      refine ⟨List.suffix_refl _, ?_, hch.tail⟩
      intro pp r2 hpr
      injection hpr with hp1 hp2
      rw [← hp1]
      by_cases hc : childrenAt t q = []
      · exact hc
      · exact absurd (hlink hc) hcond

/-! ## One-step preservation of the engine invariants -/

theorem expandStep_core_inv {g : Grammar} {reg : ModMap} {handlers : ObjHandlerMap}
    {rng : Nat → Nat} {t : PTree} {d : RuntimeDict} {ridx : Nat}
    {p : Path} {rest : List Path} {st' : ExpState} {b : Bool}
    (hG : GoodStack t (p :: rest)) (hH : HClosed t)
    (h : expandStep g reg handlers rng ⟨t, d, p :: rest, ridx⟩ = .ok (st', b)) :
    (GoodStack st'.tree st'.stack ∧ HClosed st'.tree) ∧ StepObs t st'.tree ∧
      TreeEvo t st'.tree := by
  obtain ⟨np, hnp, hnpc⟩ := hG.mem p (by simp)
  have hchl : childrenAt t p = [] := hG.top p rest rfl
  cases np with
  | node dat cs =>
  have hcs : cs = [] := by
    have hx := hchl
    simp only [childrenAt, hnp] at hx
    exact hx
  subst hcs
  have hdatc : dat.complete = false := by simpa using hnpc
  rw [expandStep.eq_def] at h
  simp only [List.isEmpty_cons, Bool.false_eq_true, if_false] at h
  rw [expandAt.eq_def, hnp] at h
  simp only at h
  cases hexp : expandSub g handlers rng d ridx (PTree.node dat []) with
  | error e => rw [hexp] at h; simp at h
  | ok res =>
  obtain ⟨sub', d', r'⟩ := res
  rw [hexp] at h
  simp only at h
  cases sub' with
  | node sd scs =>
  have hshape : NodeShapeOK dat (.node sd scs) := expandSub_shape hexp
  obtain ⟨hsI, hsC, hsH, hsKids⟩ := hshape
  have hsI' : sd.input = dat.input := by simpa using hsI
  have hsC' : sd.complete = dat.complete := by simpa using hsC
  have hsH' : dat.hidden = true → sd.hidden = true := by simpa using hsH
  have hsKids' : ∀ c ∈ scs, c.children = [] ∧ c.data.hidden = sd.hidden ∧
      c.data.complete = computeComplete c.data.input := by simpa using hsKids
  have hself : (t.setAt p (.node sd scs)).get? p = some (.node sd scs) :=
    setAt_get_self _ hnp
  have hchAt : childrenAt (t.setAt p (.node sd scs)) p = scs := by
    simp only [childrenAt, hself]
  have hobs : StepObs t (t.setAt p (.node sd scs)) := by
    intro q n hq
    exact preserve_obs hnp (by simpa using hsC') (by simpa using hsI')
      (by simpa using hsH') hq
  have hsubH : HClosed (.node sd scs) := by
    refine HClosed.node sd scs ?_ ?_
    · intro hsdh c hcm
      rw [(hsKids' c hcm).2.1, hsdh]
    · intro c hcm
      have hcc : c.children = [] := (hsKids' c hcm).1
      cases c with
      | node cd ccs =>
        simp only [PTree.children_node] at hcc
        subst hcc
        exact HClosed.node cd [] (by simp) (by simp)
  have hH' : HClosed (t.setAt p (.node sd scs)) := by
    refine HClosed_setAt hH hsubH ?_
    intro n hn hh
    rw [hnp] at hn
    injection hn with hn
    subst hn
    simpa using hsH' (by simpa using hh)
  have hpnotin : p ∉ rest := (List.nodup_cons.mp hG.nodup).1
  have hmem' : ∀ q ∈ rest, StackMem (t.setAt p (.node sd scs)) q := by
    intro q hq
    obtain ⟨nq, hnq, hnqc⟩ := hG.mem q (by simp [hq])
    obtain ⟨nq', h1, h2, -, -⟩ := hobs q nq hnq
    exact ⟨nq', h1, by rw [h2, hnqc]⟩
  have hmemAll : ∀ q ∈ p :: rest, StackMem (t.setAt p (.node sd scs)) q := by
    intro q hq
    rcases List.mem_cons.mp hq with rfl | hq2
    · refine ⟨PTree.node sd scs, hself, ?_⟩
      simp only [PTree.data_node]
      rw [hsC']
      exact hdatc
    · exact hmem' q hq2
  have hch' : List.Chain' (Linked (t.setAt p (.node sd scs))) (p :: rest) := by
    refine chain'_imp_mem (p :: rest) hG.chain ?_
    intro u q hq hlk
    simp only [List.tail_cons] at hq
    obtain ⟨nq, hnq, -⟩ := hG.mem q (by simp [hq])
    have hqp : q ≠ p := fun e => hpnotin (e ▸ hq)
    obtain ⟨hle, hce⟩ := preserve_lastExp hnp
      (show (PTree.node sd scs).data.complete = dat.complete by simpa using hsC') hnq hqp
    intro hne'
    rw [hle]
    exact hlk (fun ht => hne' (hce.mpr ht))
  split at h
  case isTrue hac =>
    rw [hself] at h
    simp only at h
    cases hhk : handleKey reg d' (PTree.node sd scs) with
    | error e => rw [hhk] at h; simp at h
    | ok d2 =>
    rw [hhk] at h
    simp only at h
    cases hunw : unwind reg (t.setAt p (.node sd scs)) d2 p rest with
    | error e => rw [hunw] at h; simp at h
    | ok pr =>
    obtain ⟨d3, stack'⟩ := pr
    rw [hunw] at h
    simp only at h
    injection h with h
    injection h with h hb
    subst h
    obtain ⟨hsuf, htop', hchn'⟩ := unwind_good rest p d2 hunw hmem' hch'
    refine ⟨⟨⟨?_, ?_, ?_, ?_⟩, hH'⟩, hobs,
      Or.inr ⟨p, dat, sd, scs, hnp, ⟨hsI, hsC, hsH, hsKids⟩, rfl⟩⟩
    · intro q hq
      exact hmem' q (hsuf.subset hq)
    · exact htop'
    · exact hchn'
    · exact List.Nodup.sublist hsuf.sublist ((List.nodup_cons.mp hG.nodup).2)
  case isFalse hac =>
    injection h with h
    injection h with h hb
    subst h
    have hacf : areChildrenComplete scs = false := by
      rw [hchAt] at hac
      exact Bool.eq_false_iff.mpr hac
    have hkne : incompleteIdxs scs ≠ [] := by
      intro h0
      exact absurd ((incompleteIdxs_nil_iff scs).mp h0) (by simp [hacf])
    have hicp : incompleteChildPaths (t.setAt p (.node sd scs)) p =
        (incompleteIdxs scs).map (fun i => p ++ [i]) := by
      simp only [incompleteChildPaths, hchAt]
    have hgetkid : ∀ i c, scs[i]? = some c →
        (t.setAt p (.node sd scs)).get? (p ++ [i]) = some c := by
      intro i c hic
      rw [PTree.get?_append, hself]
      simp only [PTree.get?, hic]
    have hkidchl : ∀ i c, scs[i]? = some c →
        childrenAt (t.setAt p (.node sd scs)) (p ++ [i]) = [] := by
      intro i c hic
      have hcm : c ∈ scs := List.getElem?_mem hic
      cases c with
      | node cd ccs =>
        have hcc : ccs = [] := by simpa using (hsKids' _ hcm).1
        subst hcc
        simp only [childrenAt, hgetkid i _ hic]
    refine ⟨⟨⟨?_, ?_, ?_, ?_⟩, hH'⟩, hobs,
      Or.inr ⟨p, dat, sd, scs, hnp, ⟨hsI, hsC, hsH, hsKids⟩, rfl⟩⟩
    · intro q hq
      rw [hicp] at hq
      rcases List.mem_append.mp hq with hq1 | hq2
      · simp only [List.mem_map] at hq1
        obtain ⟨i, hi, rfl⟩ := hq1
        obtain ⟨c, hic, hcf⟩ := mem_incompleteIdxs.mp hi
        exact ⟨c, hgetkid i c hic, hcf⟩
      · exact hmemAll q hq2
    · intro k r2 hk
      rw [hicp] at hk
      cases hil : incompleteIdxs scs with
      | nil => exact absurd hil hkne
      | cons i0 is =>
        rw [hil] at hk
        simp only [List.map_cons, List.cons_append, List.cons.injEq] at hk
        obtain ⟨hk1, -⟩ := hk
        have hi0 : i0 ∈ incompleteIdxs scs := by rw [hil]; simp
        obtain ⟨c, hic, -⟩ := mem_incompleteIdxs.mp hi0
        exact hk1 ▸ hkidchl i0 c hic
    · rw [hicp]
      refine List.chain'_append.mpr ⟨?_, hch', ?_⟩
      · refine chain'_linked_of_childless _ ?_
        intro q hq
        simp only [List.mem_map] at hq
        obtain ⟨i, hi, rfl⟩ := hq
        obtain ⟨c, hic, -⟩ := mem_incompleteIdxs.mp hi
        exact hkidchl i c hic
      · intro x hx y hy
        simp only [List.head?_cons, Option.mem_def, Option.some.injEq] at hy
        subst hy
        rw [List.getLast?_map] at hx
        cases hgl : (incompleteIdxs scs).getLast? with
        | none => rw [hgl] at hx; simp at hx
        | some iN =>
          rw [hgl] at hx
          simp only [Option.map_some', Option.mem_def, Option.some.injEq] at hx
          subst hx
          intro hne
          simp only [lastExpandablePath, hself, lastExpandableIdx_eq_getLast, hgl]
    · rw [hicp, List.nodup_append]
      refine ⟨?_, hG.nodup, ?_⟩
      · refine List.Nodup.map ?_ (incompleteIdxs_nodup scs)
        intro a c hab
        simpa using hab
      · intro a ha1 ha2
        simp only [List.mem_map] at ha1
        obtain ⟨i, hi, rfl⟩ := ha1
        rcases List.mem_cons.mp ha2 with heq | hmem
        · have hlen := congrArg List.length heq
          simp at hlen
        · obtain ⟨nq, hnq, -⟩ := hG.mem (p ++ [i]) (by simp [hmem])
          have hnone : t.get? (p ++ [i]) = none :=
            get?_descendant_none hnp ((leadsTo_iff p (p ++ [i])).mpr ⟨[i], rfl⟩)
              (by intro he; have hlen := congrArg List.length he; simp at hlen)
          rw [hnone] at hnq
          exact absurd hnq (by simp)

theorem expandStep_inv {g : Grammar} {reg : ModMap} {handlers : ObjHandlerMap}
    {rng : Nat → Nat} {st st' : ExpState} {b : Bool}
    (hG : GoodStack st.tree st.stack) (hH : HClosed st.tree)
    (h : expandStep g reg handlers rng st = .ok (st', b)) :
    (GoodStack st'.tree st'.stack ∧ HClosed st'.tree) ∧ StepObs st.tree st'.tree ∧
      TreeEvo st.tree st'.tree := by
  obtain ⟨t, d, stack, ridx⟩ := st
  simp only at hG hH ⊢
  cases stack with
  | cons p rest => exact expandStep_core_inv hG hH h
  | nil =>
    rw [expandStep.eq_def] at h
    simp only [List.isEmpty_nil, if_true] at h
    by_cases hguard : (t.data.complete || decide (¬ t.children.isEmpty = true)) = true
    · rw [if_neg (not_not_intro hguard)] at h
      injection h with h
      injection h with h hb
      subst h
      refine ⟨⟨⟨?_, ?_, ?_, ?_⟩, hH⟩, ?_, Or.inl rfl⟩
      · intro q hq; simp at hq
      · intro q r2 hq; simp at hq
      · exact List.chain'_nil
      · exact List.nodup_nil
      · intro q n hq
        exact ⟨n, hq, rfl, rfl, fun x => x⟩
    · rw [if_pos hguard] at h
      have h2 : expandStep g reg handlers rng ⟨t, d, [([] : Path)], ridx⟩ = .ok (st', b) := by
        rw [expandStep.eq_def]
        simp only [List.isEmpty_cons, Bool.false_eq_true, if_false]
        exact h
      have hx : (t.data.complete || decide (¬ t.children.isEmpty = true)) = false :=
        Bool.eq_false_iff.mpr hguard
      simp only [Bool.or_eq_false_iff, decide_eq_false_iff_not, not_not] at hx
      have hce : t.children = [] := by
        have hy := hx.2
        cases t with
        | node td tcs => simpa using hy
      have hGr : GoodStack t [([] : Path)] := by
        refine ⟨?_, ?_, ?_, ?_⟩
        · intro q hq
          simp only [List.mem_singleton] at hq
          subst hq
          refine ⟨t, ?_, hx.1⟩
          cases t with
          | node td tcs => rfl
        · intro q r2 hq
          injection hq with h1 h2
          subst h1
          cases t with
          | node td tcs =>
            have : tcs = [] := by simpa using hce
            simp [childrenAt, PTree.get?, this]
        · exact List.chain'_singleton _
        · simp
      exact expandStep_core_inv hGr hH h2

/-! ## Hidden subtrees flatten to the empty string -/

theorem takeWhile_dropWhile_append {p : Char → Bool} :
    ∀ (b x : List Char), (∀ c ∈ b, p c = true) →
      (∀ c, x.head? = some c → p c = false) →
      (b ++ x).takeWhile p = b ∧ (b ++ x).dropWhile p = x
  | [], x, _, hx => by
    cases x with
    | nil => simp
    | cons c x' =>
      have := hx c rfl
      simp [List.takeWhile, List.dropWhile, this]
  | c :: b, x, hb, hx => by
    have hc : p c = true := hb c (by simp)
    have ih := takeWhile_dropWhile_append b x (fun a ha => hb a (by simp [ha])) hx
    simp only [List.cons_append, List.takeWhile_cons, List.dropWhile_cons, hc]
    simp [ih.1, ih.2]

theorem flattenT_hidden_fuel (reg : ModMap) :
    ∀ (n : Nat) (t : PTree), sizeOf t ≤ n → HClosed t → t.data.hidden = true →
      ∀ (im : Bool) (d : RuntimeDict), flattenT reg d t true im = .ok ("", d) := by
  intro n
  induction n with
  | zero =>
    intro t hsz
    exfalso
    cases t with
    | node td tcs => simp at hsz
  | succ n ih =>
    intro t hsz hH hh im d
    cases t with
    | node td tcs =>
      have hh' : td.hidden = true := by simpa using hh
      have hL : ∀ (cs : List PTree), (∀ c ∈ cs, sizeOf c ≤ n ∧ HClosed c ∧
          c.data.hidden = true) → ∀ (pin : String) (d0 : RuntimeDict),
          flattenL reg pin d0 true cs = .ok ("", d0) := by
        intro cs
        induction cs with
        | nil =>
          intro _ pin d0
          rw [flattenL.eq_def]
        | cons c rest ihc =>
          intro hall pin d0
          have hc1 := hall c (by simp)
          have hc : flattenT reg d0 c true false = .ok ("", d0) :=
            ih c hc1.1 hc1.2.1 hc1.2.2 false d0
          rw [flattenL.eq_def]
          simp only
          rw [hc]
          simp only
          rw [ihc (fun c2 hc2 => hall c2 (by simp [hc2])) pin d0]
          simp
      have hkids : ∀ c ∈ tcs, sizeOf c ≤ n ∧ HClosed c ∧ c.data.hidden = true := by
        intro c hc
        refine ⟨?_, hH.down c (by simpa using hc), hH.hid hh c (by simpa using hc)⟩
        have h1 : sizeOf c < sizeOf tcs := List.sizeOf_lt_of_mem hc
        have h2 : sizeOf (PTree.node td tcs) ≤ n + 1 := hsz
        simp only [PTree.node.sizeOf_spec] at h2
        omega
      have helse : ∀ d0 : RuntimeDict,
          (if tcs.isEmpty then
            if true && td.hidden then
              (Except.ok ("", d0) : Except Err (String × RuntimeDict))
            else .ok (td.input, d0)
          else flattenL reg td.input d0 true tcs) = .ok ("", d0) := by
        intro d0
        cases tcs with
        | nil => simp [hh']
        | cons c rest =>
          simp only [List.isEmpty_cons, Bool.false_eq_true, if_false]
          exact hL (c :: rest) hkids td.input d0
      have htrue : ∀ d0 : RuntimeDict,
          flattenT reg d0 (PTree.node td tcs) true true = .ok ("", d0) := by
        intro d0
        rw [flattenT.eq_def]
        rw [dif_neg (by simp)]
        simpa using helse d0
      cases im with
      | true => exact htrue d
      | false =>
        rw [flattenT.eq_def]
        by_cases hme : td.modifiers.isEmpty = true
        · rw [dif_neg (by simp [hme])]
          simpa using helse d
        · rw [dif_pos (by simp [hme])]
          rw [htrue d]
          simp only
          rw [if_pos (show ("" : String).isEmpty = true from rfl)]

/-- A hidden, hiddenness-hereditary subtree flattens to the empty string
(and leaves the dictionary untouched) when hidden nodes are ignored. -/
theorem flattenT_hidden {reg : ModMap} {t : PTree} (hH : HClosed t)
    (hh : t.data.hidden = true) (im : Bool) (d : RuntimeDict) :
    flattenT reg d t true im = .ok ("", d) :=
  flattenT_hidden_fuel reg (sizeOf t) t le_rfl hH hh im d

/-! ## Reachability and the global engine invariants -/

theorem initState_inv (g : Grammar) (input : String) :
    EngineInv (initState g input) := by
  constructor
  · refine ⟨?_, ?_, ?_, ?_⟩
    · intro q hq; simp [initState] at hq
    · intro q r2 hq; simp [initState] at hq
    · exact List.chain'_nil
    · exact List.nodup_nil
  · exact HClosed.node _ [] (by simp) (by simp)

theorem reachable_inv {g : Grammar} {reg : ModMap} {handlers : ObjHandlerMap}
    {rng : Nat → Nat} {input : String} {st : ExpState}
    (h : Reachable g reg handlers rng input st) : EngineInv st := by
  induction h with
  | refl => exact initState_inv g input
  | tail hr hs ih =>
    obtain ⟨b, hb⟩ := hs
    exact (expandStep_inv ih.1 ih.2 hb).1

theorem mkNode_consistent (input : String) : DataConsistent (mkNode input) := by
  intro q n hq
  cases q with
  | nil =>
    injection hq with hq
    subst hq
    rfl
  | cons i q => simp [mkNode, PTree.get?] at hq

theorem get?_ancestor_isSome {t : PTree} {q r : Path} {x : PTree}
    (h : t.get? (q ++ r) = some x) : ∃ y, t.get? q = some y := by
  rw [PTree.get?_append] at h
  cases hy : t.get? q with
  | none => rw [hy] at h; exact absurd h (by simp)
  | some y => exact ⟨y, rfl⟩

theorem consistent_evo {t t' : PTree} (hD : DataConsistent t)
    (hevo : TreeEvo t t') : DataConsistent t' := by
  rcases hevo with rfl | ⟨p, dat, sd, scs, hnp, hshape, rfl⟩
  · exact hD
  obtain ⟨hsI, hsC, hsH, hsKids⟩ := hshape
  have hsI' : sd.input = dat.input := by simpa using hsI
  have hsC' : sd.complete = dat.complete := by simpa using hsC
  have hdat : dat.complete = computeComplete dat.input := by
    simpa using hD p _ hnp
  have hself : (t.setAt p (.node sd scs)).get? p = some (.node sd scs) :=
    setAt_get_self _ hnp
  intro q n hq
  by_cases hqp : q = p
  · subst hqp
    rw [hself] at hq
    injection hq with hq
    subst hq
    simpa [hsC', hsI'] using hdat
  · by_cases hanc : leadsTo q p = true
    · obtain ⟨r, hr⟩ := (leadsTo_iff q p).mp hanc
      obtain ⟨n0, hn0⟩ := get?_ancestor_isSome (q := q) (r := r) (by rw [← hr]; exact hnp)
      obtain ⟨n', h1, h2, -⟩ := setAt_get_ancestor hanc hqp hnp
        (show (PTree.node sd scs).data.complete = (PTree.node dat []).data.complete by
          simpa using hsC') hn0
      rw [h1] at hq
      injection hq with hq
      subst hq
      rw [h2]
      exact hD q n0 hn0
    · by_cases hdesc : leadsTo p q = true
      · obtain ⟨r, rfl⟩ := (leadsTo_iff p q).mp hdesc
        rw [PTree.get?_append, hself] at hq
        cases r with
        | nil => exact absurd (List.append_nil p) hqp
        | cons i r' =>
          simp only [PTree.get?] at hq
          cases hci : scs[i]? with
          | none => rw [hci] at hq; exact absurd hq (by simp)
          | some c =>
            rw [hci] at hq
            have hcm : c ∈ scs := List.getElem?_mem hci
            have hck := (hsKids c (by simpa using hcm)).1
            cases c with
            | node cd ccs =>
              have hccs : ccs = [] := by simpa using hck
              subst hccs
              cases r' with
              | nil =>
                injection hq with hq
                subst hq
                simpa using (hsKids _ (by simpa using hcm)).2.2
              | cons j r'' => simp [PTree.get?] at hq
      · rw [setAt_get_incomparable (.node sd scs) (Bool.not_eq_true _ ▸ hdesc)
          (Bool.not_eq_true _ ▸ hanc)] at hq
        exact hD q n hq

theorem reachable_consistent {g : Grammar} {reg : ModMap} {handlers : ObjHandlerMap}
    {rng : Nat → Nat} {input : String} {st : ExpState}
    (h : Reachable g reg handlers rng input st) : DataConsistent st.tree := by
  induction h with
  | refl => exact mkNode_consistent input
  | tail hr hs ih =>
    obtain ⟨b, hb⟩ := hs
    have hinv := reachable_inv hr
    exact consistent_evo ih (expandStep_inv hinv.1 hinv.2 hb).2.2

/-! ## Soundness of the only-rule-with-actions parse: the re-wrapped
rule is itself a rule reference -/

theorem parseModsF_shape : ∀ (fuel : Nat) (cs ms rest : List Char),
    parseModsF fuel cs = some (ms, rest) → ModsShape ms := by
  intro fuel
  induction fuel with
  | zero => intro cs ms rest h; simp [parseModsF] at h
  | succ fuel ih =>
    intro cs ms rest h
    cases cs with
    | nil =>
      rw [show parseModsF (fuel + 1) [] = some ([], []) from rfl] at h
      injection h with h
      injection h with h1 h2
      subst h1
      exact ModsShape.nil
    | cons c cs' =>
      by_cases hc : c = '.'
      · subst hc
        rw [show parseModsF (fuel + 1) ('.' :: cs') =
            (if (cs'.takeWhile modChar).isEmpty then none
             else match parseModsF fuel (cs'.dropWhile modChar) with
               | some (ms2, rest') => some ('.' :: (cs'.takeWhile modChar ++ ms2), rest')
               | none => none) from rfl] at h
        split at h
        next => exact absurd h (by simp)
        next hg =>
          cases hrec : parseModsF fuel (cs'.dropWhile modChar) with
          | none => rw [hrec] at h; simp at h
          | some pr =>
            obtain ⟨ms', rest'⟩ := pr
            rw [hrec] at h
            simp only at h
            injection h with h
            injection h with h1 h2
            subst h1
            refine ModsShape.cons _ _ ?_ ?_ (ih _ _ _ hrec)
            · intro he
              rw [he] at hg
              exact hg rfl
            · intro c2 hc2
              exact List.mem_takeWhile_imp hc2
      · have hred : parseModsF (fuel + 1) (c :: cs') = some ([], c :: cs') := by
          rw [parseModsF.eq_def]
          simp only
          split
          case h_1 cs2 hx =>
            exfalso
            injection hx with hh ht
            exact hc hh
          case h_2 => rfl
        rw [hred] at h
        injection h with h
        injection h with h1 h2
        subst h1
        exact ModsShape.nil

theorem modsShape_head {ms : List Char} (h : ModsShape ms) :
    ∀ c, (ms ++ ['#']).head? = some c → modChar c = false := by
  cases h with
  | nil =>
    intro c hc
    simp only [List.nil_append, List.head?_cons, Option.some.injEq] at hc
    subst hc
    decide
  | cons b ms' hb hmod hsh =>
    intro c hc
    simp only [List.cons_append, List.head?_cons, Option.some.injEq] at hc
    subst hc
    decide

theorem modsShape_head_alnum {ms : List Char} (h : ModsShape ms) :
    ∀ c, (ms ++ ['#']).head? = some c → isAlnumC c = false := by
  cases h with
  | nil =>
    intro c hc
    simp only [List.nil_append, List.head?_cons, Option.some.injEq] at hc
    subst hc
    decide
  | cons b ms' hb hmod hsh =>
    intro c hc
    simp only [List.cons_append, List.head?_cons, Option.some.injEq] at hc
    subst hc
    decide

theorem modsShape_reparse {ms : List Char} (h : ModsShape ms) :
    ∀ fuel, ms.length + 1 ≤ fuel → parseModsF fuel (ms ++ ['#']) = some (ms, ['#']) := by
  induction h with
  | nil =>
    intro fuel hf
    obtain ⟨f, rfl⟩ : ∃ f, fuel = f + 1 := ⟨fuel - 1, by omega⟩
    rfl
  | cons b ms' hb hbmod hsh ih =>
    intro fuel hf
    obtain ⟨f, rfl⟩ : ∃ f, fuel = f + 1 := ⟨fuel - 1, by omega⟩
    obtain ⟨htake, hdrop⟩ := takeWhile_dropWhile_append b (ms' ++ ['#']) hbmod
      (modsShape_head hsh)
    have hf' : ms'.length + 1 ≤ f := by
      simp only [List.length_cons, List.length_append] at hf
      have hb1 : 1 ≤ b.length := by
        cases b with
        | nil => exact absurd rfl hb
        | cons x xs => simp
      omega
    have hl : (('.' :: (b ++ ms')) ++ ['#'] : List Char) = '.' :: (b ++ (ms' ++ ['#'])) := by
      simp
    rw [hl, parseModsF.eq_def]
    simp only
    rw [htake, hdrop]
    rw [if_neg (by cases b with
      | nil => exact absurd rfl hb
      | cons x xs => simp)]
    rw [ih f hf']

theorem parseRuleTail_shape {cs name ms rest : List Char}
    (h : parseRuleTail cs = some (name, ms, rest)) :
    name ≠ [] ∧ (∀ c ∈ name, isAlnumC c = true) ∧ ModsShape ms := by
  unfold parseRuleTail at h
  split at h
  · exact absurd h (by simp)
  case isFalse hg =>
    split at h
    case h_1 => exact absurd h (by simp)
    case h_2 ms0 cs2 hpm =>
      split at h
      case h_2 => exact absurd h (by simp)
      case h_1 rest0 =>
        injection h with h
        injection h with h1 h2
        injection h2 with h2 h3
        subst h1
        subst h2
        refine ⟨?_, ?_, parseModsF_shape _ _ _ _ hpm⟩
        · intro he
          rw [he] at hg
          exact hg rfl
        · intro c hc
          exact List.mem_takeWhile_imp hc

theorem containsRule_rewrap {cs name ms rest : List Char}
    (h : parseRuleTail cs = some (name, ms, rest)) :
    containsRule ("#" ++ String.mk name ++ String.mk ms ++ "#") = true := by
  obtain ⟨hne, halnum, hsh⟩ := parseRuleTail_shape h
  obtain ⟨htake, hdrop⟩ := takeWhile_dropWhile_append (p := isAlnumC) name (ms ++ ['#'])
    halnum (modsShape_head_alnum hsh)
  have hprt : parseRuleTail (name ++ (ms ++ ['#'])) = some (name, ms, []) := by
    unfold parseRuleTail
    rw [htake, hdrop]
    rw [if_neg (by cases name with
      | nil => exact absurd rfl hne
      | cons x xs => simp)]
    unfold parseModsChars
    rw [modsShape_reparse hsh _
      (by simp only [List.length_append, List.length_cons, List.length_nil]; omega)]
    rfl
  have hcas : consumeActionStar (name ++ (ms ++ ['#'])) =
      some ([], name ++ (ms ++ ['#'])) := by
    cases name with
    | nil => exact absurd rfl hne
    | cons c0 name' =>
      have hc0 : isAlnumC c0 = true := halnum c0 (by simp)
      have hc0ne : c0 ≠ '[' := by
        intro he
        subst he
        exact absurd hc0 (by decide)
      unfold consumeActionStar
      rw [consumeActionStarF.eq_def]
      simp only
      split
      case h_1 cs2 hx =>
        exfalso
        injection hx with hh ht
        exact hc0ne hh
      case h_2 => rfl
  have hmatch : matchRuleFrom ('#' :: (name ++ (ms ++ ['#']))) =
      some ('#' :: ([] ++ name ++ ms ++ ['#']), name, []) := by
    rw [matchRuleFrom, hcas]
    simp only [hprt]
  have hdata : ("#" ++ String.mk name ++ String.mk ms ++ "#").data =
      '#' :: (name ++ (ms ++ ['#'])) := by
    simp [String.data_append]
  rw [containsRule, hdata, ruleSearchSplit, hmatch]
  rfl

theorem orwaTry_sound {cs : List Char} : ∀ (i : Nat) {gb name ms : List Char},
    orwaTry cs i = some (gb, name, ms) →
    ∃ k, parseRuleTail (cs.drop k) = some (name, ms, []) := by
  intro i
  induction i with
  | zero => intro gb name ms h; simp [orwaTry] at h
  | succ i ih =>
    intro gb name ms h
    rw [orwaTry] at h
    split at h
    · split at h
      case h_1 name0 ms0 heq =>
        injection h with h
        injection h with h1 h2
        injection h2 with h2 h3
        subst h2
        subst h3
        exact ⟨i + 1, heq⟩
      case h_2 => exact ih h
    · exact ih h

theorem orwa_rule_child_incomplete {s a rn msS : String}
    (h : onlyRuleWithActionsParse s = some (a, rn, msS)) :
    containsRule ("#" ++ rn ++ msS ++ "#") = true := by
  unfold onlyRuleWithActionsParse at h
  split at h
  case h_1 cs =>
    split at h
    case h_1 gb name ms horwa =>
      injection h with h
      injection h with h1 h2
      injection h2 with h2 h3
      subst h2
      subst h3
      obtain ⟨k, hprt⟩ := orwaTry_sound _ horwa
      exact containsRule_rewrap hprt
    case h_2 => exact absurd h (by simp)
  case h_2 => exact absurd h (by simp)

/-- C3: along any run of the expansion loop, the node about to be
expanded — the stack top — always exists, has an empty children list and
a false complete flag, every stacked node is incomplete, and when the
stack is empty a root that is complete or already has children is not
expanded (the step is a no-op).  So a node with children is never
re-expanded and a complete node is never expanded. -/
theorem c3_stack_discipline {g : Grammar} {reg : ModMap} {handlers : ObjHandlerMap}
    {rng : Nat → Nat} {input : String} {st : ExpState}
    (h : Reachable g reg handlers rng input st) :
    (∀ p rest, st.stack = p :: rest →
      ∃ n, st.tree.get? p = some n ∧ n.children = [] ∧ n.data.complete = false) ∧
    (∀ q ∈ st.stack, ∃ n, st.tree.get? q = some n ∧ n.data.complete = false) ∧
    (st.stack = [] → (st.tree.data.complete = true ∨ st.tree.children ≠ []) →
      expandStep g reg handlers rng st = .ok (st, false)) := by
  obtain ⟨hG, -⟩ := reachable_inv h
  refine ⟨?_, ?_, ?_⟩
  · intro p rest hs
    obtain ⟨n, hn, hc⟩ := hG.mem p (by rw [hs]; simp)
    have hch := hG.top p rest hs
    refine ⟨n, hn, ?_, hc⟩
    cases n with
    | node nd ncs =>
      simp only [childrenAt, hn] at hch
      simpa using hch
  · intro q hq
    exact hG.mem q hq
  · intro hs hcc
    obtain ⟨t, d, stack, ridx⟩ := st
    simp only at hs hcc ⊢
    subst hs
    have hx : (t.data.complete || decide (¬ t.children.isEmpty = true)) = true := by
      rcases hcc with hc1 | hc2
      · simp [hc1]
      · cases hch : t.children with
        | nil => exact absurd hch hc2
        | cons x xs => simp [hch]
    rw [expandStep.eq_def]
    simp only [List.isEmpty_nil, if_true]
    rw [if_neg (not_not_intro hx)]


/-- c3 witness: after one step on the start text `#a#`, the run reaches
a state whose stack top points at the fresh incomplete, childless child
node holding `#b#`. -/
theorem c3_stack_discipline_witness :
    ∃ st : ExpState,
      Relation.ReflTransGen (StepRel c3g [] [] (fun _ => 0)) (initState c3g "#a#") st ∧
      st.stack = [0] :: [[]] ∧
      ∃ n, st.tree.get? [0] = some n ∧ n.children = [] ∧ n.data.complete = false := by
  have hstep : expandStep c3g [] [] (fun _ => 0) (initState c3g "#a#") =
      .ok (⟨PTree.node ⟨"#a#", false, false, none, modsSplit ""⟩ [mkChild false "#b#"],
        (initState c3g "#a#").dict, [[0], []], 0⟩, true) := rfl
  have hreach : Reachable c3g [] [] (fun _ => 0) "#a#"
      ⟨PTree.node ⟨"#a#", false, false, none, modsSplit ""⟩ [mkChild false "#b#"],
        (initState c3g "#a#").dict, [[0], []], 0⟩ :=
    Relation.ReflTransGen.tail Relation.ReflTransGen.refl ⟨true, hstep⟩
  exact ⟨_, hreach, rfl, (c3_stack_discipline hreach).1 [0] [[]] rfl⟩

/-- C9: `addChild` copies the parent's hidden flag onto the new child;
an engine step never clears a node's hidden flag; and every hidden node
of a reachable tree roots an all-hidden subtree, so flattening it with
ignoreHidden=true yields the empty string (suppressing the whole
subtree, not just its root). -/
theorem c9_hidden_inheritance {g : Grammar} {reg : ModMap} {handlers : ObjHandlerMap}
    {rng : Nat → Nat} {input : String} {st : ExpState}
    (h : Reachable g reg handlers rng input st) :
    (∀ (dat : NodeData) (cs : List PTree) (s : String),
      (PTree.node dat cs).addChild s = .node dat (cs ++ [mkChild dat.hidden s]) ∧
      (mkChild dat.hidden s).data.hidden = dat.hidden) ∧
    (∀ st' b, expandStep g reg handlers rng st = .ok (st', b) →
      ∀ q n, st.tree.get? q = some n → n.data.hidden = true →
        ∃ n', st'.tree.get? q = some n' ∧ n'.data.hidden = true) ∧
    (∀ q n, st.tree.get? q = some n → n.data.hidden = true →
      ∀ (m : ModMap) (d : RuntimeDict), flattenT m d n true false = .ok ("", d)) := by
  obtain ⟨hG, hH⟩ := reachable_inv h
  refine ⟨fun dat cs s => ⟨rfl, rfl⟩, ?_, ?_⟩
  · intro st' b hb q n hq hh
    obtain ⟨n', h1, -, -, h4⟩ := (expandStep_inv hG hH hb).2.1 q n hq
    exact ⟨n', h1, h4 hh⟩
  · intro q n hq hh m d
    exact flattenT_hidden (HClosed_get hH hq) hh false d

/-- c9 witness: one step on the start text `[k:v]` marks the root
hidden; flattening the reached tree with ignoreHidden=true yields the
empty string. -/
theorem c9_hidden_inheritance_witness :
    ∃ st : ExpState,
      Relation.ReflTransGen (StepRel ([] : Grammar) [] [] (fun _ => 0))
        (initState [] "[k:v]") st ∧
      ∃ n, st.tree.get? [] = some n ∧ n.data.hidden = true ∧
        ∀ (m : ModMap) (d : RuntimeDict), flattenT m d n true false = .ok ("", d) := by
  have hstep : expandStep ([] : Grammar) [] [] (fun _ => 0) (initState [] "[k:v]") =
      .ok (⟨PTree.node ⟨"[k:v]", false, true, none, []⟩ [],
        RuntimeDict.emptyDict.push "k" (Json.arr ((commaSplit "v").map Json.str)),
        [], 0⟩, false) := rfl
  have hreach : Reachable ([] : Grammar) [] [] (fun _ => 0) "[k:v]"
      ⟨PTree.node ⟨"[k:v]", false, true, none, []⟩ [],
        RuntimeDict.emptyDict.push "k" (Json.arr ((commaSplit "v").map Json.str)),
        [], 0⟩ :=
    Relation.ReflTransGen.tail Relation.ReflTransGen.refl ⟨false, hstep⟩
  exact ⟨_, hreach, PTree.node ⟨"[k:v]", false, true, none, []⟩ [], rfl, rfl,
    fun m d => (c9_hidden_inheritance hreach).2.2 [] _ rfl rfl m d⟩

/-- C2 (amended): at construction the complete flag is true iff the text
contains no rule reference and is not an only-actions fragment — merely
containing an action group (as in `x[y]`, see the counterexample) does
not prevent completeness; and the flag is never changed afterwards: each
engine step keeps every node's complete flag and input text, and each
reachable node's flag still equals its constructor value. -/
theorem c2_amended_complete_flag {g : Grammar} {reg : ModMap} {handlers : ObjHandlerMap}
    {rng : Nat → Nat} {input : String} {st : ExpState}
    (h : Reachable g reg handlers rng input st) :
    (∀ s : String, (mkNode s).data.complete = true ↔
      (containsRule s = false ∧ containsOnlyActions s = false)) ∧
    (∀ (hid : Bool) (s : String), (mkChild hid s).data.complete = true ↔
      (containsRule s = false ∧ containsOnlyActions s = false)) ∧
    (∀ st' b, expandStep g reg handlers rng st = .ok (st', b) →
      ∀ q n, st.tree.get? q = some n → ∃ n', st'.tree.get? q = some n' ∧
        n'.data.complete = n.data.complete ∧ n'.data.input = n.data.input) ∧
    (∀ q n, st.tree.get? q = some n → n.data.complete = computeComplete n.data.input) := by
  obtain ⟨hG, hH⟩ := reachable_inv h
  refine ⟨?_, ?_, ?_, reachable_consistent h⟩
  · intro s
    simp [mkNode, computeComplete]
  · intro hid s
    simp [mkChild, computeComplete]
  · intro st' b hb q n hq
    obtain ⟨n', h1, h2, h3, -⟩ := (expandStep_inv hG hH hb).2.1 q n hq
    exact ⟨n', h1, h2, h3⟩

/-- c2 witness at a concrete instance: the trivial run on the start text
`x` (no step taken). -/
theorem c2_amended_complete_flag_witness :
    (∀ s : String, (mkNode s).data.complete = true ↔
      (containsRule s = false ∧ containsOnlyActions s = false)) ∧
    (∀ (hid : Bool) (s : String), (mkChild hid s).data.complete = true ↔
      (containsRule s = false ∧ containsOnlyActions s = false)) ∧
    (∀ st' b, expandStep ([] : Grammar) [] [] (fun _ => 0) (initState [] "x") = .ok (st', b) →
      ∀ q n, (initState ([] : Grammar) "x").tree.get? q = some n →
        ∃ n', st'.tree.get? q = some n' ∧
          n'.data.complete = n.data.complete ∧ n'.data.input = n.data.input) ∧
    (∀ q n, (initState ([] : Grammar) "x").tree.get? q = some n →
      n.data.complete = computeComplete n.data.input) :=
  c2_amended_complete_flag Relation.ReflTransGen.refl

/-- C7: expanding an only-rule-with-actions node creates exactly two
children in order — the actions substring first, then the rule
re-wrapped in its octothorpes; the rule child is always incomplete, and
the expansion step pushes the incomplete children in document order, so
the actions child sits above the rule child on the stack and is expanded
(and its keys bound) first. -/
theorem c7_actions_before_rule {g : Grammar} {reg : ModMap} {handlers : ObjHandlerMap}
    {rng : Nat → Nat} {t : PTree} {d : RuntimeDict} {ridx : Nat}
    {p : Path} {rest : List Path} {st' : ExpState} {b : Bool}
    {dat : NodeData} {a rn msS : String}
    (hnp : t.get? p = some (.node dat []))
    (hcmp : dat.complete = false)
    (h1 : onlyRuleParse dat.input = none)
    (h2 : onlyRuleWithActionsParse dat.input = some (a, rn, msS))
    (h : expandStep g reg handlers rng ⟨t, d, p :: rest, ridx⟩ = .ok (st', b)) :
    st'.tree.get? p = some (.node dat
      [mkChild dat.hidden a, mkChild dat.hidden ("#" ++ rn ++ msS ++ "#")]) ∧
    (mkChild dat.hidden ("#" ++ rn ++ msS ++ "#")).data.complete = false ∧
    st'.stack = ((if (mkChild dat.hidden a).data.complete then []
        else [p ++ [0]]) ++ [p ++ [1]]) ++ p :: rest := by
  have hexp : expandSub g handlers rng d ridx (PTree.node dat []) =
      .ok (.node dat [mkChild dat.hidden a,
        mkChild dat.hidden ("#" ++ rn ++ msS ++ "#")], d, ridx) := by
    rw [expandSub.eq_def]
    simp only [PTree.data_node, PTree.children_node]
    rw [if_neg (by simp [hcmp])]
    simp only [h1, h2]
    rfl
  have hc2 : (mkChild dat.hidden ("#" ++ rn ++ msS ++ "#")).data.complete = false := by
    simp only [mkChild, PTree.data_node]
    simp [computeComplete, orwa_rule_child_incomplete h2]
  rw [expandStep.eq_def] at h
  simp only [List.isEmpty_cons, Bool.false_eq_true, if_false] at h
  rw [expandAt.eq_def, hnp] at h
  simp only at h
  rw [hexp] at h
  simp only at h
  have hself : (t.setAt p (PTree.node dat [mkChild dat.hidden a,
      mkChild dat.hidden ("#" ++ rn ++ msS ++ "#")])).get? p =
      some (.node dat [mkChild dat.hidden a,
        mkChild dat.hidden ("#" ++ rn ++ msS ++ "#")]) :=
    setAt_get_self _ hnp
  have hchAt : childrenAt (t.setAt p (PTree.node dat [mkChild dat.hidden a,
      mkChild dat.hidden ("#" ++ rn ++ msS ++ "#")])) p =
      [mkChild dat.hidden a, mkChild dat.hidden ("#" ++ rn ++ msS ++ "#")] := by
    simp only [childrenAt, hself]
  have hacc : areChildrenComplete (childrenAt (t.setAt p (PTree.node dat
      [mkChild dat.hidden a, mkChild dat.hidden ("#" ++ rn ++ msS ++ "#")])) p) = false := by
    rw [hchAt]
    simp [areChildrenComplete, hc2]
  split at h
  case isTrue hac =>
    rw [hacc] at hac
    exact absurd hac (by simp)
  case isFalse hac =>
    injection h with h
    injection h with h hb
    subst h
    refine ⟨hself, hc2, ?_⟩
    show incompleteChildPaths _ p ++ p :: rest = _
    simp only [incompleteChildPaths, hchAt]
    by_cases hc1 : (mkChild dat.hidden a).data.complete = true
    · simp [incompleteIdxs, hc1, hc2]
    · have hc1' : (mkChild dat.hidden a).data.complete = false :=
        Bool.eq_false_iff.mpr hc1
      simp [incompleteIdxs, hc1', hc2]

/-- c7 witness at the concrete fragment `#[k:v]a#`: the two children are
`[k:v]` and `#a#`, the rule child is incomplete, and the stack lists the
actions child first. -/
theorem c7_actions_before_rule_witness :
    ∃ st' b, expandStep ([] : Grammar) [] [] (fun _ => 0)
      ⟨mkNode "#[k:v]a#", RuntimeDict.emptyDict, [([] : Path)], 0⟩ = .ok (st', b) ∧
    st'.tree.get? [] = some (.node ⟨"#[k:v]a#", false, false, none, []⟩
      [mkChild false "[k:v]", mkChild false ("#" ++ "a" ++ "" ++ "#")]) ∧
    (mkChild false ("#" ++ "a" ++ "" ++ "#")).data.complete = false ∧
    st'.stack = [[0], [1], []] := by
  have hstep : expandStep ([] : Grammar) [] [] (fun _ => 0)
      ⟨mkNode "#[k:v]a#", RuntimeDict.emptyDict, [([] : Path)], 0⟩ =
      .ok (⟨PTree.node ⟨"#[k:v]a#", false, false, none, []⟩
        [mkChild false "[k:v]", mkChild false "#a#"],
        RuntimeDict.emptyDict, [[0], [1], []], 0⟩, true) := rfl
  have hmain := c7_actions_before_rule
    (show (mkNode "#[k:v]a#").get? [] =
      some (.node ⟨"#[k:v]a#", false, false, none, []⟩ []) from rfl)
    rfl rfl rfl hstep
  exact ⟨_, _, hstep, hmain.1, hmain.2.1, hmain.2.2⟩

end Tracerz
